import Mathlib

/-!
Verification of the SegmentMap crate: a binary search tree keyed by
half-open segments.  The definitions below are a shallow embedding of
`src/segment.rs`, `src/segment_map_node.rs` and `src/interval_map.rs`
(the `Interval` variant is identical to the `Segment` variant up to
visibility).  Rust `Option<SegmentMapNode>` is embedded as the inductive
`SegMap` whose `nil` constructor stands for `None`.  The Rust
`panic!` in `insert` is embedded as an `Option`/`RunResult.violation`
return value; the non-structural recursion of `remove`/`update_entry`
is embedded with explicit fuel, `RunResult.diverge` marking fuel
exhaustion.
-/

set_option linter.unusedVariables false
set_option linter.unusedSectionVars false

/-- Half-open segment `[lower, upper)` over an ordered key type.
Embeds `Segment<K>` from `src/segment.rs`. -/
structure Segment (K : Type) where
  lower : K
  upper : K
deriving DecidableEq, Repr

namespace Segment

variable {K : Type} [LinearOrder K]

/-- Embeds `Segment::contains`: `lower <= value && value < upper`. -/
def contains (s : Segment K) (value : K) : Prop :=
  s.lower ≤ value ∧ value < s.upper

instance (s : Segment K) (value : K) : Decidable (s.contains value) := by
  unfold contains; infer_instance

/-- Embeds `Segment::encloses`. -/
def encloses (s other : Segment K) : Prop :=
  s.lower ≤ other.lower ∧ other.upper ≤ s.upper

instance (s other : Segment K) : Decidable (s.encloses other) := by
  unfold encloses; infer_instance

/-- Embeds `Segment::is_connected`. -/
def isConnected (s other : Segment K) : Prop :=
  s.lower ≤ other.upper ∧ other.lower ≤ s.upper

instance (s other : Segment K) : Decidable (s.isConnected other) := by
  unfold isConnected; infer_instance

/-- Embeds `Segment::is_empty`: `lower == upper`. -/
def isEmpty (s : Segment K) : Prop := s.lower = s.upper

instance (s : Segment K) : Decidable (s.isEmpty) := by
  unfold isEmpty; infer_instance

/-- Embeds `Segment::intersection`: `None` when not connected, otherwise
the overlapping sub-range (kept in the exact `if`-form of the source). -/
def intersection (s other : Segment K) : Option (Segment K) :=
  if s.isConnected other then
    some ⟨if s.lower < other.lower then other.lower else s.lower,
          if other.upper < s.upper then other.upper else s.upper⟩
  else none

/-- Embeds the binary `Segment::span`. -/
def spanWith (s other : Segment K) : Segment K :=
  ⟨if s.lower < other.lower then s.lower else other.lower,
   if other.upper < s.upper then s.upper else other.upper⟩

end Segment

/-- Result of running an embedded fallible / possibly non-terminating
operation: `ok` is a normal return, `violation` embeds the Rust
`panic!("segments must not overlap")`, and `diverge` means the fuel ran
out before the recursion finished. -/
inductive RunResult (α : Type) where
  | diverge
  | violation
  | ok (val : α)
deriving DecidableEq, Repr

namespace RunResult

/-- Apply a function to the payload of a normal result, propagating
divergence and contract violations. -/
def map {α β : Type} (f : α → β) : RunResult α → RunResult β
  | .diverge => .diverge
  | .violation => .violation
  | .ok a => .ok (f a)

end RunResult

/-- Shallow embedding of `Option<SegmentMapNode<K, V>>`
(`src/segment_map_node.rs`): `nil` is `None`, `node segment value left
right` is a `SegmentMapNode` with its two boxed optional subtrees.  The
`SegmentMap` wrapper of the crate holds exactly such an optional root,
so this type also serves as the map itself (empty map ⇔ `nil`). -/
inductive SegMap (K V : Type) where
  | nil
  | node (segment : Segment K) (value : V) (left right : SegMap K V)
deriving DecidableEq, Repr

namespace SegMap

variable {K V : Type} [LinearOrder K]

/-- In-order list of `(segment, value)` entries.  Models the in-order
traversal produced by the crate's `Iter`/`IntoIter` (which walk the tree
with an explicit stack, yielding left subtree, node, right subtree). -/
def toList : SegMap K V → List (Segment K × V)
  | .nil => []
  | .node s v l r => toList l ++ (s, v) :: toList r

/-- Entries as a multiset (order-independent view of `toList`). -/
def entriesM (t : SegMap K V) : Multiset (Segment K × V) := (toList t : List _)

/-- Stored segments as a multiset. -/
def segsM (t : SegMap K V) : Multiset (Segment K) := t.entriesM.map Prod.fst

/-- Number of nodes. -/
def size : SegMap K V → Nat
  | .nil => 0
  | .node _ _ l r => 1 + size l + size r

/-- Embeds `SegmentMapNode::get_entry`, the BST point search.  On `nil`
(no node / empty map) there is no entry, matching both the missing-child
case and `SegmentMap::get_entry` on an empty root. -/
def getEntry (t : SegMap K V) (key : K) : Option (Segment K × V) :=
  match t with
  | .nil => none
  | .node s v l r =>
    if s.contains key then some (s, v)
    else if key < s.lower then getEntry l key
    else getEntry r key

/-- Embeds `SegmentMapNode::get` / `SegmentMap::get`. -/
def get (t : SegMap K V) (key : K) : Option V :=
  (getEntry t key).map Prod.snd

/-- Embeds `SegmentMapNode::insert` (plain insert, no splitting).  The
`nil` case creates a fresh node, matching both the missing-child cases
of the Rust code and `SegmentMap::insert` on an empty root.  A `none`
result embeds the Rust `panic!("segments must not overlap")`. -/
def insertT : SegMap K V → Segment K → V → Option (SegMap K V)
  | .nil, seg, v => some (.node seg v .nil .nil)
  | .node s val l r, seg, v =>
    if seg.lower = s.lower ∧ seg.upper = s.upper then
      none
    else if seg.upper ≤ s.lower then
      (insertT l seg v).map fun l' => .node s val l' r
    else if s.upper ≤ seg.lower then
      (insertT r seg v).map fun r' => .node s val l r'
    else none

/-- Embeds `SegmentMapNode::remove_min_node`, called on a node with
fields `s v l r`.  Returns the remainder of the subtree and the data of
the extracted minimum node `(segment, value, right-subtree)`.  Note the
faithful reproduction of the source's base case `(None, self)`: the
minimum node is returned still carrying its right subtree, and the
remainder does not contain that right subtree. -/
def removeMinNode : Segment K → V → SegMap K V → SegMap K V →
    SegMap K V × (Segment K × V × SegMap K V)
  | s, v, .nil, r => (.nil, (s, v, r))
  | s, v, .node ls lv ll lr, r =>
    (.node s v (removeMinNode ls lv ll lr).1 r, (removeMinNode ls lv ll lr).2)

/-- Embeds the node-removal `match (*self.left, *self.right)` block that
appears verbatim at six places in `remove`/`update_entry`.  In the
two-children case the caller writes `result.right = Box::new(right)` and
`result.left = Box::new(Some(left))`, overwriting whatever right subtree
the extracted minimum node carried (that subtree, the third component
returned by `removeMinNode`, is discarded here exactly as in the
source). -/
def excise : SegMap K V → SegMap K V → SegMap K V
  | .nil, .nil => .nil
  | .node ls lv ll lr, .nil => .node ls lv ll lr
  | .nil, .node rs rv rl rr => .node rs rv rl rr
  | .node ls lv ll lr, .node rs rv rl rr =>
    .node (removeMinNode rs rv rl rr).2.1 (removeMinNode rs rv rl rr).2.2.1
      (.node ls lv ll lr) (removeMinNode rs rv rl rr).1

/-- Lift an insert result into a `RunResult` (a failed insert is the
overlap contract violation). -/
def insRes (o : Option (SegMap K V)) : RunResult (SegMap K V) :=
  match o with
  | some t => .ok t
  | none => .violation

/-- Embeds `SegmentMapNode::remove` (and `SegmentMap::remove`, whose
empty-root case coincides with the `nil` case here).  The first
argument is fuel: the Rust recursion re-enters `remove` on the
restructured tree, so it is not structural; `diverge` is returned when
the fuel runs out. -/
def removeF : Nat → SegMap K V → Segment K → RunResult (SegMap K V)
  | 0, _, _ => .diverge
  | _ + 1, .nil, _ => .ok .nil
  | n + 1, .node s v l r, seg =>
    if seg.isEmpty then
      if s.encloses seg then
        if seg.lower = s.lower ∧ seg.upper = s.upper then
          .ok (excise l r)
        else if seg.lower = s.lower then
          (removeF n l seg).map fun l' => .node s v l' r
        else if seg.upper = s.upper then
          (removeF n r seg).map fun r' => .node s v l r'
        else
          match insertT (excise l r) ⟨s.lower, seg.lower⟩ v with
          | none => .violation
          | some res1 => insRes (insertT res1 ⟨seg.upper, s.upper⟩ v)
      else if seg.upper < s.lower then
        (removeF n l seg).map fun l' => .node s v l' r
      else
        (removeF n r seg).map fun r' => .node s v l r'
    else
      match seg.intersection s with
      | some inter =>
        if inter.isEmpty then
          if seg.lower = s.upper then
            (removeF n r seg).map fun r' => .node s v l r'
          else
            (removeF n l seg).map fun l' => .node s v l' r
        else
          match (if seg.lower < inter.lower then
              removeF n (excise l r) ⟨seg.lower, inter.lower⟩
            else if s.lower < inter.lower then
              insRes (insertT (excise l r) ⟨s.lower, inter.lower⟩ v)
            else .ok (excise l r)) with
          | .ok res1 =>
            if inter.upper < seg.upper then
              removeF n res1 ⟨inter.upper, seg.upper⟩
            else if inter.upper < s.upper then
              insRes (insertT res1 ⟨inter.upper, s.upper⟩ v)
            else .ok res1
          | e => e
      | none =>
        if s.upper < seg.lower then
          (removeF n r seg).map fun r' => .node s v l r'
        else
          (removeF n l seg).map fun l' => .node s v l' r

/-- Embeds `SegmentMapNode::update_entry` (and `SegmentMap::update_entry`:
the `nil` case, which invokes the update function with `None` and
creates a node from a produced value, coincides with both the
missing-child cases and the empty-root case of the crate).  Fueled for
the same reason as `removeF`. -/
def updateEntryF :
    Nat → SegMap K V → Segment K → (Segment K → Option V → Option V) →
    RunResult (SegMap K V)
  | 0, _, _, _ => .diverge
  | _ + 1, .nil, seg, f =>
    match f seg none with
    | some w => .ok (.node seg w .nil .nil)
    | none => .ok .nil
  | n + 1, .node s v l r, seg, f =>
    if seg.isEmpty then
      if s.encloses seg then
        if seg.lower = s.lower ∧ seg.upper = s.upper then
          match f seg (some v) with
          | some w => insRes (insertT (excise l r) seg w)
          | none => .ok (excise l r)
        else if seg.lower = s.lower then
          (updateEntryF n l seg f).map fun l' => .node s v l' r
        else if seg.upper = s.upper then
          (updateEntryF n r seg f).map fun r' => .node s v l r'
        else
          match (match f seg (some v) with
            | some w => insertT (excise l r) seg w
            | none => some (excise l r)) with
          | none => .violation
          | some res0 =>
            match insertT res0 ⟨s.lower, seg.lower⟩ v with
            | none => .violation
            | some res1 => insRes (insertT res1 ⟨seg.upper, s.upper⟩ v)
      else if seg.upper < s.lower then
        (updateEntryF n l seg f).map fun l' => .node s v l' r
      else
        (updateEntryF n r seg f).map fun r' => .node s v l r'
    else
      match seg.intersection s with
      | some inter =>
        if inter.isEmpty then
          if seg.lower = s.upper then
            (updateEntryF n r seg f).map fun r' => .node s v l r'
          else
            (updateEntryF n l seg f).map fun l' => .node s v l' r
        else
          match (match f inter (some v) with
            | some w => insertT (excise l r) inter w
            | none => some (excise l r)) with
          | none => .violation
          | some res0 =>
            match (if seg.lower < inter.lower then
                updateEntryF n res0 ⟨seg.lower, inter.lower⟩ f
              else if s.lower < inter.lower then
                insRes (insertT res0 ⟨s.lower, inter.lower⟩ v)
              else .ok res0) with
            | .ok res1 =>
              if inter.upper < seg.upper then
                updateEntryF n res1 ⟨inter.upper, seg.upper⟩ f
              else if inter.upper < s.upper then
                insRes (insertT res1 ⟨inter.upper, s.upper⟩ v)
              else .ok res1
            | e => e
      | none =>
        if s.upper < seg.lower then
          (updateEntryF n r seg f).map fun r' => .node s v l r'
        else
          (updateEntryF n l seg f).map fun l' => .node s v l' r

/-- Embeds `SegmentMapNode::update` / `SegmentMap::update`:
`update_entry` with a function ignoring the segment argument. -/
def updateF (n : Nat) (t : SegMap K V) (seg : Segment K)
    (f : Option V → Option V) : RunResult (SegMap K V) :=
  updateEntryF n t seg fun _ v => f v

/-- Embeds `SegmentMapNode::min_key`: lower bound of the leftmost node.
Only meaningful on a node, so it takes the node's fields. -/
def minKey : Segment K → SegMap K V → K
  | s, .nil => s.lower
  | _, .node ls _ ll _ => minKey ls ll

/-- Embeds `SegmentMapNode::max_key`: upper bound of the rightmost node. -/
def maxKey : Segment K → SegMap K V → K
  | s, .nil => s.upper
  | _, .node rs _ _ rr => maxKey rs rr

/-- Embeds `SegmentMap::span`: `None` on the empty map, otherwise
`Segment::new(root.min_key(), root.max_key())`. -/
def span : SegMap K V → Option (Segment K)
  | .nil => none
  | .node s _ l r => some ⟨minKey s l, maxKey s r⟩

end SegMap

namespace SegMap

variable {K V : Type} [LinearOrder K]

/-- Compatibility of a fresh segment with a stored one: the plain-insert
descent can pass the stored node (new segment entirely at or below its
lower bound, or entirely at or above its upper bound) and the two are
not identical.  This is exactly the condition under which `insert`
neither panics at that node nor would panic on the duplicate check. -/
def SegCompat (seg u : Segment K) : Prop :=
  (seg.upper ≤ u.lower ∨ u.upper ≤ seg.lower) ∧ seg ≠ u

instance (seg u : Segment K) : Decidable (SegCompat seg u) := by
  unfold SegCompat; infer_instance

/-- The BST invariant of the tree, following the spec's data-model
invariant: every segment in the left subtree ends at or below the node's
lower bound, every segment in the right subtree starts at or above the
node's upper bound, no stored segment equals an ancestor's segment, and
every stored segment is well-formed (`lower ≤ upper`). -/
def Inv : SegMap K V → Prop
  | .nil => True
  | .node s _ l r =>
    s.lower ≤ s.upper ∧
    (∀ x ∈ segsM l, x.upper ≤ s.lower ∧ x ≠ s) ∧
    (∀ x ∈ segsM r, s.upper ≤ x.lower ∧ x ≠ s) ∧
    Inv l ∧ Inv r

/-- All stored segments are well-formed (`lower ≤ upper`); the data
model's standing assumption on segments. -/
def WfSegs (t : SegMap K V) : Prop := ∀ x ∈ segsM t, x.lower ≤ x.upper

instance (t : SegMap K V) : Decidable (WfSegs t) := by
  unfold WfSegs; infer_instance

/-- Map states reachable from the empty map through the public
operations, with well-formed arguments: plain `insert` only when it
succeeds (a panicking insert aborts), `remove`/`update`/`update_entry`
with a well-formed target segment and enough fuel to finish. -/
inductive Reachable : SegMap K V → Prop
  | empty : Reachable .nil
  | insert {t t' : SegMap K V} {seg v} :
      Reachable t → insertT t seg v = some t' → Reachable t'
  | remove {t t' : SegMap K V} {seg : Segment K} {n} :
      Reachable t → seg.lower ≤ seg.upper →
      removeF n t seg = .ok t' → Reachable t'
  | update {t t' : SegMap K V} {seg : Segment K} {n f} :
      Reachable t → seg.lower ≤ seg.upper →
      updateF n t seg f = .ok t' → Reachable t'
  | updateEntry {t t' : SegMap K V} {seg : Segment K} {n f} :
      Reachable t → seg.lower ≤ seg.upper →
      updateEntryF n t seg f = .ok t' → Reachable t'

/-- Width of a target segment, the primary termination measure. -/
def segWidth (s : Segment Int) : Nat := (s.upper - s.lower).toNat

/-- Number of stored ill-formed (reversed) segments, the secondary
termination measure for `remove`. -/
def cntRev : SegMap K V → Nat
  | .nil => 0
  | .node s _ l r => (if s.upper < s.lower then 1 else 0) + cntRev l + cntRev r

end SegMap

namespace SegMap

variable {K V : Type} [LinearOrder K]

@[simp] theorem toList_nil : (SegMap.nil : SegMap K V).toList = [] := rfl

@[simp] theorem toList_node (s : Segment K) (v : V) (l r : SegMap K V) :
    (SegMap.node s v l r).toList = l.toList ++ (s, v) :: r.toList := rfl

@[simp] theorem entriesM_nil : (SegMap.nil : SegMap K V).entriesM = 0 := rfl

@[simp] theorem entriesM_node (s : Segment K) (v : V) (l r : SegMap K V) :
    (SegMap.node s v l r).entriesM = (s, v) ::ₘ (l.entriesM + r.entriesM) := by
  simp only [entriesM, toList_node]
  rw [← Multiset.coe_add]
  exact Multiset.coe_eq_coe.mpr (List.perm_append_comm.trans
    (by simpa using ((@List.perm_append_comm _ r.toList l.toList).cons (s, v))))

@[simp] theorem segsM_nil : (SegMap.nil : SegMap K V).segsM = 0 := rfl

@[simp] theorem segsM_node (s : Segment K) (v : V) (l r : SegMap K V) :
    (SegMap.node s v l r).segsM = s ::ₘ (l.segsM + r.segsM) := by
  simp [segsM, Multiset.map_cons]

theorem mem_segsM {t : SegMap K V} {x : Segment K} :
    x ∈ t.segsM ↔ ∃ v, (x, v) ∈ t.entriesM := by
  simp only [segsM, Multiset.mem_map]
  constructor
  · rintro ⟨⟨a, b⟩, hm, rfl⟩; exact ⟨b, hm⟩
  · rintro ⟨v, hv⟩; exact ⟨(x, v), hv, rfl⟩

theorem segsM_mem_of_entry {t : SegMap K V} {e : Segment K × V}
    (h : e ∈ t.entriesM) : e.1 ∈ t.segsM :=
  mem_segsM.mpr ⟨e.2, h⟩

@[simp] theorem inv_nil : Inv (SegMap.nil : SegMap K V) := trivial

theorem inv_node_iff {s : Segment K} {v : V} {l r : SegMap K V} :
    Inv (SegMap.node s v l r) ↔
      s.lower ≤ s.upper ∧
      (∀ x ∈ segsM l, x.upper ≤ s.lower ∧ x ≠ s) ∧
      (∀ x ∈ segsM r, s.upper ≤ x.lower ∧ x ≠ s) ∧
      Inv l ∧ Inv r := Iff.rfl

/-- Decidability of the invariant, for concrete witnesses. -/
instance invDec : (t : SegMap K V) → Decidable (Inv t)
  | .nil => .isTrue trivial
  | .node s v l r =>
    letI : Decidable (Inv l) := invDec l
    letI : Decidable (Inv r) := invDec r
    decidable_of_iff _ inv_node_iff.symm

theorem inv_wf {t : SegMap K V} (h : Inv t) : ∀ x ∈ t.segsM, x.lower ≤ x.upper := by
  induction t with
  | nil => simp
  | node s v l r ihl ihr =>
    obtain ⟨hwf, hl, hr, il, ir⟩ := inv_node_iff.mp h
    intro x hx
    rcases by simpa using hx with rfl | hx | hx
    · exact hwf
    · exact ihl il x hx
    · exact ihr ir x hx

theorem inv_left {s : Segment K} {v : V} {l r : SegMap K V}
    (h : Inv (SegMap.node s v l r)) : Inv l := (inv_node_iff.mp h).2.2.2.1

theorem inv_right {s : Segment K} {v : V} {l r : SegMap K V}
    (h : Inv (SegMap.node s v l r)) : Inv r := (inv_node_iff.mp h).2.2.2.2

end SegMap

namespace SegMap

variable {K V : Type} [LinearOrder K]

theorem seg_eq_iff {a b : Segment K} : a = b ↔ a.lower = b.lower ∧ a.upper = b.upper := by
  cases a; cases b; simp

theorem insert_entries {t t' : SegMap K V} {seg : Segment K} {v : V}
    (h : insertT t seg v = some t') : t'.entriesM = (seg, v) ::ₘ t.entriesM := by
  induction t generalizing t' with
  | nil =>
    simp only [insertT, Option.some_inj] at h
    subst h; simp
  | node s val l r ihl ihr =>
    simp only [insertT] at h
    split at h
    · exact absurd h (by simp)
    · split at h
      · obtain ⟨l', hl', rfl⟩ := Option.map_eq_some'.mp h
        simp [ihl hl', Multiset.cons_add, Multiset.cons_swap]
      · split at h
        · obtain ⟨r', hr', rfl⟩ := Option.map_eq_some'.mp h
          simp only [entriesM_node, ihr hr']
          rw [Multiset.add_cons, Multiset.cons_swap]
        · exact absurd h (by simp)

theorem insert_segs {t t' : SegMap K V} {seg : Segment K} {v : V}
    (h : insertT t seg v = some t') : t'.segsM = seg ::ₘ t.segsM := by
  simp [segsM, insert_entries h]

theorem insert_of_compat {t : SegMap K V} {g : Segment K} (v : V)
    (h : ∀ u ∈ t.segsM, SegCompat g u) : ∃ t', insertT t g v = some t' := by
  induction t with
  | nil => exact ⟨_, rfl⟩
  | node s val l r ihl ihr =>
    obtain ⟨hd, hne⟩ := h s (by simp)
    have hnp : ¬(g.lower = s.lower ∧ g.upper = s.upper) := by
      intro hc; exact hne (seg_eq_iff.mpr hc)
    by_cases hc1 : g.upper ≤ s.lower
    · obtain ⟨l', hl'⟩ := ihl fun u hu => h u (by simp [hu])
      refine ⟨.node s val l' r, ?_⟩
      simp [insertT, hnp, hc1, hl']
    · have hc2 : s.upper ≤ g.lower := hd.resolve_left hc1
      obtain ⟨r', hr'⟩ := ihr fun u hu => h u (by simp [hu])
      refine ⟨.node s val l r', ?_⟩
      simp [insertT, hnp, hc1, hc2, hr']

theorem insert_compat_of_ok {t t' : SegMap K V} {seg : Segment K} {v : V}
    (hinv : Inv t) (h : insertT t seg v = some t') :
    ∀ u ∈ t.segsM, SegCompat seg u := by
  induction t generalizing t' with
  | nil => simp
  | node s val l r ihl ihr =>
    obtain ⟨hwf, hL, hR, il, ir⟩ := inv_node_iff.mp hinv
    have hwfall := inv_wf hinv
    simp only [insertT] at h
    split at h
    · exact absurd h (by simp)
    · rename_i hnp
      have hnes : seg ≠ s := fun hc => hnp (seg_eq_iff.mp hc)
      split at h
      · rename_i hc1
        obtain ⟨l', hl', rfl⟩ := Option.map_eq_some'.mp h
        intro u hu
        rcases by simpa using hu with rfl | hu | hu
        · exact ⟨Or.inl hc1, hnes⟩
        · exact ihl il hl' u hu
        · refine ⟨Or.inl (hc1.trans (hwf.trans (hR u hu).1)), fun hc => ?_⟩
          have h1 : u.upper ≤ s.lower := hc ▸ hc1
          have h2 : s.upper ≤ u.lower := (hR u hu).1
          have h3 : u.lower ≤ u.upper := hwfall u (by simp [hu])
          exact (hR u hu).2 (seg_eq_iff.mpr ⟨le_antisymm (h3.trans h1) (hwf.trans h2),
            le_antisymm (h1.trans hwf) (h2.trans h3)⟩)
      · split at h
        · rename_i hc1 hc2
          obtain ⟨r', hr', rfl⟩ := Option.map_eq_some'.mp h
          intro u hu
          rcases by simpa using hu with rfl | hu | hu
          · exact ⟨Or.inr hc2, hnes⟩
          · refine ⟨Or.inr ((hL u hu).1.trans (hwf.trans hc2)), fun hc => ?_⟩
            have h1 : u.upper ≤ s.lower := (hL u hu).1
            have h2 : s.upper ≤ u.lower := hc ▸ hc2
            have h3 : u.lower ≤ u.upper := hwfall u (by simp [hu])
            exact (hL u hu).2 (seg_eq_iff.mpr ⟨le_antisymm (h3.trans h1) (hwf.trans h2),
              le_antisymm (h1.trans hwf) (h2.trans h3)⟩)
          · exact ihr ir hr' u hu
        · exact absurd h (by simp)

theorem insert_inv {t t' : SegMap K V} {g : Segment K} {v : V}
    (hinv : Inv t) (hwfseg : g.lower ≤ g.upper)
    (h : insertT t g v = some t') : Inv t' := by
  induction t generalizing t' with
  | nil =>
    simp only [insertT, Option.some_inj] at h
    subst h
    exact inv_node_iff.mpr ⟨hwfseg, by simp, by simp, trivial, trivial⟩
  | node s val l r ihl ihr =>
    obtain ⟨hwf, hL, hR, il, ir⟩ := inv_node_iff.mp hinv
    simp only [insertT] at h
    split at h
    · exact absurd h (by simp)
    · rename_i hnp
      have hnes : g ≠ s := fun hc => hnp (seg_eq_iff.mp hc)
      split at h
      · rename_i hc1
        obtain ⟨l', hl', rfl⟩ := Option.map_eq_some'.mp h
        refine inv_node_iff.mpr ⟨hwf, ?_, hR, ihl il hl', ir⟩
        intro x hx
        rw [insert_segs hl'] at hx
        rcases Multiset.mem_cons.mp hx with rfl | hx
        · exact ⟨hc1, hnes⟩
        · exact hL x hx
      · split at h
        · rename_i hc1 hc2
          obtain ⟨r', hr', rfl⟩ := Option.map_eq_some'.mp h
          refine inv_node_iff.mpr ⟨hwf, hL, ?_, il, ihr ir hr'⟩
          intro x hx
          rw [insert_segs hr'] at hx
          rcases Multiset.mem_cons.mp hx with rfl | hx
          · exact ⟨hc2, hnes⟩
          · exact hR x hx
        · exact absurd h (by simp)

theorem insert_none_of_conflict {t : SegMap K V} {seg u : Segment K} (v : V)
    (hinv : Inv t) (hu : u ∈ t.segsM) (hbad : ¬ SegCompat seg u) :
    insertT t seg v = none := by
  cases h : insertT t seg v with
  | none => rfl
  | some t' => exact absurd (insert_compat_of_ok hinv h u hu) hbad

end SegMap

namespace SegMap

variable {K V : Type} [LinearOrder K]

theorem seg_squeeze {x s : Segment K} (h1 : x.upper ≤ s.lower) (h2 : s.upper ≤ x.lower)
    (h3 : x.lower ≤ x.upper) (h4 : s.lower ≤ s.upper) : x = s :=
  seg_eq_iff.mpr ⟨le_antisymm (h3.trans h1) (h4.trans h2),
    le_antisymm (h1.trans h4) (h2.trans h3)⟩

theorem mem_segs_root (s : Segment K) (v : V) (l r : SegMap K V) :
    s ∈ (SegMap.node s v l r).segsM := by simp

theorem mem_segs_left {x : Segment K} {l : SegMap K V} (s : Segment K) (v : V)
    (r : SegMap K V) (h : x ∈ l.segsM) : x ∈ (SegMap.node s v l r).segsM := by simp [h]

theorem mem_segs_right {x : Segment K} {r : SegMap K V} (s : Segment K) (v : V)
    (l : SegMap K V) (h : x ∈ r.segsM) : x ∈ (SegMap.node s v l r).segsM := by simp [h]

theorem rmn_entries (s : Segment K) (v : V) (l r : SegMap K V) :
    (removeMinNode s v l r).1.entriesM +
      (((removeMinNode s v l r).2.1, (removeMinNode s v l r).2.2.1) ::ₘ
        (removeMinNode s v l r).2.2.2.entriesM) =
      (SegMap.node s v l r).entriesM := by
  induction l generalizing s v r with
  | nil => simp [removeMinNode]
  | node ls lv ll lr ihll ihlr =>
    have ih := ihll ls lv lr
    simp only [removeMinNode, entriesM_node] at ih ⊢
    rw [Multiset.cons_add]
    congr 1
    rw [add_right_comm, ih]

theorem rmn_entries_le (s : Segment K) (v : V) (l r : SegMap K V) :
    (removeMinNode s v l r).1.entriesM ≤ (SegMap.node s v l r).entriesM := by
  rw [← rmn_entries s v l r]; exact Multiset.le_add_right _ _

theorem rmn_mem (s : Segment K) (v : V) (l r : SegMap K V) :
    ((removeMinNode s v l r).2.1, (removeMinNode s v l r).2.2.1) ∈
      (SegMap.node s v l r).entriesM := by
  rw [← rmn_entries s v l r]
  exact Multiset.mem_add.mpr (Or.inr (Multiset.mem_cons_self _ _))

theorem segsM_le_of_entries_le {t u : SegMap K V} (h : t.entriesM ≤ u.entriesM) :
    t.segsM ≤ u.segsM := Multiset.map_le_map h

theorem rmn_min {s : Segment K} {v : V} {l r : SegMap K V}
    (hinv : Inv (SegMap.node s v l r)) :
    Inv (removeMinNode s v l r).1 ∧
    (∀ y ∈ (removeMinNode s v l r).1.segsM,
      (removeMinNode s v l r).2.1.upper ≤ y.lower ∧ y ≠ (removeMinNode s v l r).2.1) := by
  induction l generalizing s v r with
  | nil => simp [removeMinNode]
  | node ls lv ll lr ihll ihlr =>
    obtain ⟨hwf, hL, hR, il, ir⟩ := inv_node_iff.mp hinv
    have hwfall := inv_wf hinv
    have hmemL : (removeMinNode ls lv ll lr).2.1 ∈ (SegMap.node ls lv ll lr).segsM :=
      segsM_mem_of_entry (rmn_mem ls lv ll lr)
    have hsubL : (removeMinNode ls lv ll lr).1.segsM ≤ (SegMap.node ls lv ll lr).segsM :=
      segsM_le_of_entries_le (rmn_entries_le ls lv ll lr)
    obtain ⟨ihinv, ihbd⟩ := ihll (s := ls) (v := lv) (r := lr) il
    constructor
    · simp only [removeMinNode]
      refine inv_node_iff.mpr ⟨hwf, ?_, hR, ihinv, ir⟩
      intro x hx
      exact hL x (Multiset.mem_of_le hsubL hx)
    · simp only [removeMinNode]
      intro y hy
      have hms := hL _ hmemL
      rcases by simpa using hy with rfl | hy | hy
      · exact ⟨hms.1, fun hc => hms.2 hc.symm⟩
      · exact ihbd y hy
      · have h1 : (removeMinNode ls lv ll lr).2.1.upper ≤ y.lower :=
          (hms.1.trans hwf).trans (hR y hy).1
        refine ⟨h1, fun hc => ?_⟩
        have h2 : s.upper ≤ y.lower := (hR y hy).1
        have h3 : y.upper ≤ s.lower := hc ▸ hms.1
        have h4 : y.lower ≤ y.upper := hwfall y (mem_segs_right s v _ hy)
        exact (hR y hy).2 (seg_squeeze h3 h2 h4 hwf)

theorem excise_entries_le (l r : SegMap K V) :
    (excise l r).entriesM ≤ l.entriesM + r.entriesM := by
  cases l with
  | nil =>
    cases r with
    | nil => simp [excise]
    | node rs rv rl rr => simp [excise]
  | node ls lv ll lr =>
    cases r with
    | nil => simp [excise]
    | node rs rv rl rr =>
      have key := rmn_entries rs rv rl rr
      have h1 : ((removeMinNode rs rv rl rr).2.1, (removeMinNode rs rv rl rr).2.2.1) ::ₘ
          (removeMinNode rs rv rl rr).1.entriesM ≤ (SegMap.node rs rv rl rr).entriesM := by
        rw [← key, Multiset.add_cons]
        exact Multiset.cons_le_cons _ (Multiset.le_add_right _ _)
      have final : (excise (SegMap.node ls lv ll lr) (SegMap.node rs rv rl rr)).entriesM
          = (SegMap.node ls lv ll lr).entriesM +
            (((removeMinNode rs rv rl rr).2.1, (removeMinNode rs rv rl rr).2.2.1) ::ₘ
              (removeMinNode rs rv rl rr).1.entriesM) := by
        simp only [excise, entriesM_node]
        rw [Multiset.add_cons]
      rw [final]
      exact add_le_add_left h1 _

theorem excise_segs_le (l r : SegMap K V) :
    (excise l r).segsM ≤ l.segsM + r.segsM := by
  have h := Multiset.map_le_map (f := Prod.fst) (excise_entries_le l r)
  simpa [segsM, Multiset.map_add] using h

theorem excise_inv {s : Segment K} {v : V} {l r : SegMap K V}
    (hinv : Inv (SegMap.node s v l r)) : Inv (excise l r) := by
  obtain ⟨hwf, hL, hR, il, ir⟩ := inv_node_iff.mp hinv
  have hwfall := inv_wf hinv
  cases l with
  | nil =>
    cases r with
    | nil => simp [excise]
    | node rs rv rl rr => simpa [excise] using ir
  | node ls lv ll lr =>
    cases r with
    | nil => simpa [excise] using il
    | node rs rv rl rr =>
      simp only [excise]
      have hms : (removeMinNode rs rv rl rr).2.1 ∈ (SegMap.node rs rv rl rr).segsM :=
        segsM_mem_of_entry (rmn_mem rs rv rl rr)
      obtain ⟨ihinv, ihbd⟩ := rmn_min (s := rs) (v := rv) (l := rl) (r := rr) ir
      have hmswf : (removeMinNode rs rv rl rr).2.1.lower ≤ (removeMinNode rs rv rl rr).2.1.upper :=
        inv_wf ir _ hms
      refine inv_node_iff.mpr ⟨hmswf, ?_, ihbd, il, ihinv⟩
      intro x hx
      have hxL := hL x hx
      have hmsR := hR _ hms
      refine ⟨hxL.1.trans (hwf.trans hmsR.1), fun hc => ?_⟩
      have h3 : x.lower ≤ x.upper := hwfall x (mem_segs_left s v _ hx)
      have h1 : x.upper ≤ s.lower := hxL.1
      have h2 : s.upper ≤ x.lower := hc ▸ hmsR.1
      exact hxL.2 (seg_squeeze h1 h2 h3 hwf)

end SegMap

namespace SegMap

variable {K V : Type} [LinearOrder K]

/-- Every segment of `r` lies within some segment of `t0`. -/
def Cov (t0 r : SegMap K V) : Prop :=
  ∀ x ∈ r.segsM, ∃ u ∈ t0.segsM, u.lower ≤ x.lower ∧ x.upper ≤ u.upper

/-- Every segment of `r` lies within some segment of `t0` or within the
target segment `seg`. -/
def CovT (t0 : SegMap K V) (seg : Segment K) (r : SegMap K V) : Prop :=
  ∀ x ∈ r.segsM, (∃ u ∈ t0.segsM, u.lower ≤ x.lower ∧ x.upper ≤ u.upper) ∨
    (seg.lower ≤ x.lower ∧ x.upper ≤ seg.upper)

/-- Every segment of `r` is either an original segment of `t0` or a
freshly created nonempty fragment. -/
def NewProper (t0 r : SegMap K V) : Prop :=
  ∀ x ∈ r.segsM, x ∈ t0.segsM ∨ x.lower < x.upper

/-- No zero-width stored segments. -/
def AllProper (t : SegMap K V) : Prop := ∀ x ∈ t.segsM, x.lower < x.upper

instance (t : SegMap K V) : Decidable (AllProper t) := by
  unfold AllProper; infer_instance

/-- Soundness package for one `remove` run on an invariant-satisfying
tree with a well-formed target: no contract violation, and a normal
result keeps the invariant, stays within the original coverage, and
creates only nonempty fragments. -/
def RemGood (t0 : SegMap K V) : RunResult (SegMap K V) → Prop
  | .diverge => True
  | .violation => False
  | .ok r => Inv r ∧ Cov t0 r ∧ NewProper t0 r

/-- Soundness package for one `update_entry` run with a proper target on
an invariant-satisfying tree without zero-width segments. -/
def UpdGood (t0 : SegMap K V) (seg : Segment K) : RunResult (SegMap K V) → Prop
  | .diverge => True
  | .violation => False
  | .ok r => Inv r ∧ AllProper r ∧ CovT t0 seg r

theorem cov_trans {t0 t1 r : SegMap K V} (h1 : Cov t0 t1) (h2 : Cov t1 r) : Cov t0 r := by
  intro x hx
  obtain ⟨u, hu, h3, h4⟩ := h2 x hx
  obtain ⟨w, hw, h5, h6⟩ := h1 u hu
  exact ⟨w, hw, h5.trans h3, h4.trans h6⟩

theorem newproper_trans {t0 t1 r : SegMap K V} (h1 : NewProper t0 t1)
    (h2 : NewProper t1 r) : NewProper t0 r := by
  intro x hx
  rcases h2 x hx with hx1 | hp
  · exact h1 x hx1
  · exact Or.inr hp

theorem cov_of_segs_le {t0 r : SegMap K V} (h : r.segsM ≤ t0.segsM) : Cov t0 r :=
  fun x hx => ⟨x, Multiset.mem_of_le h hx, le_refl _, le_refl _⟩

theorem newproper_of_segs_le {t0 r : SegMap K V} (h : r.segsM ≤ t0.segsM) :
    NewProper t0 r := fun x hx => Or.inl (Multiset.mem_of_le h hx)

theorem excise_segs_le_node (s : Segment K) (v : V) (l r : SegMap K V) :
    (excise l r).segsM ≤ (SegMap.node s v l r).segsM := by
  refine (excise_segs_le l r).trans ?_
  rw [segsM_node]
  exact (Multiset.le_cons_self _ _)

/-- Convenience: successful compatible insert with all its consequences. -/
theorem ins_good {t0 : SegMap K V} {g : Segment K} (v : V) (hinv : Inv t0)
    (hwfseg : g.lower ≤ g.upper)
    (hcompat : ∀ u ∈ t0.segsM, SegCompat g u) :
    ∃ t1, insertT t0 g v = some t1 ∧ Inv t1 ∧ t1.segsM = g ::ₘ t0.segsM := by
  obtain ⟨t1, ht1⟩ := insert_of_compat v hcompat
  exact ⟨t1, ht1, insert_inv hinv hwfseg ht1, insert_segs ht1⟩

/-- Rebuilding a node above a well-behaved left-subtree result keeps the
`remove` soundness package. -/
theorem remgood_left {s : Segment K} {v : V} {l r : SegMap K V}
    (hinv : Inv (SegMap.node s v l r)) {res : RunResult (SegMap K V)}
    (h : RemGood l res) :
    RemGood (SegMap.node s v l r) (res.map fun l' => SegMap.node s v l' r) := by
  obtain ⟨hwf, hL, hR, il, ir⟩ := inv_node_iff.mp hinv
  cases res with
  | diverge => trivial
  | violation => exact h.elim
  | ok l' =>
    obtain ⟨hinv', hcov, hnp⟩ := h
    refine ⟨?_, ?_, ?_⟩
    · refine inv_node_iff.mpr ⟨hwf, ?_, hR, hinv', ir⟩
      intro x hx
      obtain ⟨u, hu, h1, h2⟩ := hcov x hx
      refine ⟨h2.trans (hL u hu).1, fun hc => ?_⟩
      rcases hnp x hx with hmem | hp
      · exact (hL x hmem).2 hc
      · subst hc
        exact absurd (hp.trans_le (h2.trans (hL u hu).1)) (lt_irrefl _)
    · intro x hx
      rcases by simpa using hx with rfl | hx | hx
      · exact ⟨x, by simp, le_refl _, le_refl _⟩
      · obtain ⟨u, hu, h1, h2⟩ := hcov x hx
        exact ⟨u, mem_segs_left s v r hu, h1, h2⟩
      · exact ⟨x, mem_segs_right s v l hx, le_refl _, le_refl _⟩
    · intro x hx
      rcases by simpa using hx with rfl | hx | hx
      · exact Or.inl (by simp)
      · rcases hnp x hx with hmem | hp
        · exact Or.inl (mem_segs_left s v r hmem)
        · exact Or.inr hp
      · exact Or.inl (mem_segs_right s v l hx)

/-- Mirror image of `remgood_left` for the right subtree. -/
theorem remgood_right {s : Segment K} {v : V} {l r : SegMap K V}
    (hinv : Inv (SegMap.node s v l r)) {res : RunResult (SegMap K V)}
    (h : RemGood r res) :
    RemGood (SegMap.node s v l r) (res.map fun r' => SegMap.node s v l r') := by
  obtain ⟨hwf, hL, hR, il, ir⟩ := inv_node_iff.mp hinv
  cases res with
  | diverge => trivial
  | violation => exact h.elim
  | ok r' =>
    obtain ⟨hinv', hcov, hnp⟩ := h
    refine ⟨?_, ?_, ?_⟩
    · refine inv_node_iff.mpr ⟨hwf, hL, ?_, il, hinv'⟩
      intro x hx
      obtain ⟨u, hu, h1, h2⟩ := hcov x hx
      refine ⟨(hR u hu).1.trans h1, fun hc => ?_⟩
      rcases hnp x hx with hmem | hp
      · exact (hR x hmem).2 hc
      · subst hc
        exact absurd (hp.trans_le ((hR u hu).1.trans h1)) (lt_irrefl _)
    · intro x hx
      rcases by simpa using hx with rfl | hx | hx
      · exact ⟨x, by simp, le_refl _, le_refl _⟩
      · exact ⟨x, mem_segs_left s v r hx, le_refl _, le_refl _⟩
      · obtain ⟨u, hu, h1, h2⟩ := hcov x hx
        exact ⟨u, mem_segs_right s v l hu, h1, h2⟩
    · intro x hx
      rcases by simpa using hx with rfl | hx | hx
      · exact Or.inl (by simp)
      · exact Or.inl (mem_segs_left s v r hx)
      · rcases hnp x hx with hmem | hp
        · exact Or.inl (mem_segs_right s v l hmem)
        · exact Or.inr hp

end SegMap

namespace SegMap

variable {K V : Type} [LinearOrder K]

theorem inter_spec {seg s inter : Segment K} (hi : seg.intersection s = some inter) :
    seg.lower ≤ s.upper ∧ s.lower ≤ seg.upper ∧
    inter.lower = max seg.lower s.lower ∧ inter.upper = min seg.upper s.upper := by
  unfold Segment.intersection at hi
  split at hi
  · rename_i hconn
    injection hi with hi
    subst hi
    refine ⟨hconn.1, hconn.2, ?_, ?_⟩
    · by_cases h : seg.lower < s.lower
      · simp [h, max_eq_right h.le]
      · simp [h, max_eq_left (le_of_not_lt h)]
    · by_cases h : s.upper < seg.upper
      · simp [h, min_eq_right h.le]
      · simp [h, min_eq_left (le_of_not_lt h)]
  · exact absurd hi (by simp)

theorem inter_none {seg s : Segment K} (hi : seg.intersection s = none) :
    ¬(seg.lower ≤ s.upper ∧ s.lower ≤ seg.upper) := by
  unfold Segment.intersection at hi
  split at hi
  · exact absurd hi (by simp)
  · rename_i h; exact h

/-- Chaining soundness packages through intermediate trees. -/
theorem remgood_comp {t0 t1 : SegMap K V} {res : RunResult (SegMap K V)}
    (hcov : Cov t0 t1) (hnp : NewProper t0 t1) (h : RemGood t1 res) :
    RemGood t0 res := by
  cases res with
  | diverge => trivial
  | violation => exact h.elim
  | ok r => exact ⟨h.1, cov_trans hcov h.2.1, newproper_trans hnp h.2.2⟩

/-- First phase of the positive-overlap branch of `remove`: handling
the part of the target below the intersection. -/
theorem rem_phase1 {n : Nat} {s : Segment K} {v : V} {l r : SegMap K V}
    {g inter : Segment K}
    (hinv : Inv (SegMap.node s v l r))
    (ih : ∀ (t' : SegMap K V) (g' : Segment K), Inv t' →
      g'.lower ≤ g'.upper → RemGood t' (removeF n t' g'))
    (hsl : s.lower ≤ inter.lower) (hsegl : g.lower ≤ inter.lower)
    (hlow : ¬ g.lower < inter.lower → inter.lower = g.lower)
    (hproper : inter.lower < inter.upper) (hius : inter.upper ≤ s.upper) :
    (if g.lower < inter.lower then
        removeF n (excise l r) ⟨g.lower, inter.lower⟩
      else if s.lower < inter.lower then
        insRes (insertT (excise l r) ⟨s.lower, inter.lower⟩ v)
      else .ok (excise l r)) ≠ .violation ∧
    (∀ res1, (if g.lower < inter.lower then
        removeF n (excise l r) ⟨g.lower, inter.lower⟩
      else if s.lower < inter.lower then
        insRes (insertT (excise l r) ⟨s.lower, inter.lower⟩ v)
      else .ok (excise l r)) = .ok res1 →
      Inv res1 ∧ Cov (SegMap.node s v l r) res1 ∧
      NewProper (SegMap.node s v l r) res1 ∧
      (∀ x ∈ res1.segsM, x.upper ≤ inter.upper ∨ s.upper ≤ x.lower)) := by
  obtain ⟨hwf, hL, hR, il, ir⟩ := inv_node_iff.mp hinv
  have hexc_mem : ∀ u ∈ (excise l r).segsM, u ∈ l.segsM ∨ u ∈ r.segsM := by
    intro u hu
    exact Multiset.mem_add.mp (Multiset.mem_of_le (excise_segs_le l r) hu)
  have hside_exc : ∀ x ∈ (excise l r).segsM, x.upper ≤ inter.upper ∨ s.upper ≤ x.lower := by
    intro x hx
    rcases hexc_mem x hx with hxl | hxr
    · exact Or.inl ((hL x hxl).1.trans (hsl.trans hproper.le))
    · exact Or.inr (hR x hxr).1
  by_cases hp1 : g.lower < inter.lower
  · rw [if_pos hp1]
    have hg := ih (excise l r) ⟨g.lower, inter.lower⟩ (excise_inv hinv) hp1.le
    cases hres : removeF n (excise l r) ⟨g.lower, inter.lower⟩ with
    | diverge => exact ⟨fun hc => RunResult.noConfusion hc, fun res1 hc => RunResult.noConfusion hc⟩
    | violation => rw [hres] at hg; exact hg.elim
    | ok res1 =>
      rw [hres] at hg
      obtain ⟨inv1, cov1, np1⟩ := hg
      refine ⟨fun hc => RunResult.noConfusion hc, fun res1' hres1' => ?_⟩
      have hr1 : res1' = res1 := by
        injection hres1' with h; exact h.symm
      subst hr1
      refine ⟨inv1, cov_trans (cov_of_segs_le (excise_segs_le_node s v l r)) cov1,
        newproper_trans (newproper_of_segs_le (excise_segs_le_node s v l r)) np1, ?_⟩
      intro x hx
      obtain ⟨u, hu, hxl, hxu⟩ := cov1 x hx
      rcases hside_exc u hu with h1 | h2
      · exact Or.inl (hxu.trans h1)
      · exact Or.inr (h2.trans hxl)
  · rw [if_neg hp1]
    by_cases hp2 : s.lower < inter.lower
    · rw [if_pos hp2]
      have hcompat : ∀ u ∈ (excise l r).segsM, SegCompat ⟨s.lower, inter.lower⟩ u := by
        intro u hu
        rcases hexc_mem u hu with hul | hur
        · refine ⟨Or.inr (hL u hul).1, fun hc => ?_⟩
          have h1 : u.upper ≤ s.lower := (hL u hul).1
          rw [← hc] at h1
          exact absurd hp2 (not_lt.mpr h1)
        · refine ⟨Or.inl (hproper.le.trans (hius.trans (hR u hur).1)), fun hc => ?_⟩
          have h1 : s.upper ≤ u.lower := (hR u hur).1
          rw [← hc] at h1
          exact absurd (hproper.trans_le (hius.trans (h1.trans hsl))) (lt_irrefl _)
      obtain ⟨t1, ht1, hinvt1, hsegst1⟩ :=
        ins_good (g := ⟨s.lower, inter.lower⟩) v (excise_inv hinv) hsl hcompat
      rw [ht1]
      refine ⟨fun hc => RunResult.noConfusion hc, fun res1 hres1 => ?_⟩
      have hr1 : res1 = t1 := by
        simp only [insRes] at hres1
        injection hres1 with h; exact h.symm
      subst hr1
      refine ⟨hinvt1, ?_, ?_, ?_⟩
      · intro x hx
        rw [hsegst1] at hx
        rcases Multiset.mem_cons.mp hx with rfl | hx
        · exact ⟨s, mem_segs_root s v l r, le_refl _, hproper.le.trans hius⟩
        · exact cov_trans (cov_of_segs_le (excise_segs_le_node s v l r))
            (cov_of_segs_le (le_refl _)) x hx
      · intro x hx
        rw [hsegst1] at hx
        rcases Multiset.mem_cons.mp hx with rfl | hx
        · exact Or.inr hp2
        · exact Or.inl (Multiset.mem_of_le (excise_segs_le_node s v l r) hx)
      · intro x hx
        rw [hsegst1] at hx
        rcases Multiset.mem_cons.mp hx with rfl | hx
        · exact Or.inl hproper.le
        · exact hside_exc x hx
    · rw [if_neg hp2]
      refine ⟨fun hc => RunResult.noConfusion hc, fun res1 hres1 => ?_⟩
      have hr1 : res1 = excise l r := by
        injection hres1 with h; exact h.symm
      subst hr1
      exact ⟨excise_inv hinv, cov_of_segs_le (excise_segs_le_node s v l r),
        newproper_of_segs_le (excise_segs_le_node s v l r), hside_exc⟩

/-- Second phase of the positive-overlap branch of `remove`: handling
the part of the target above the intersection. -/
theorem rem_phase2 {n : Nat} {s : Segment K} {v : V} {l r res1 : SegMap K V}
    {seg inter : Segment K}
    (hinv : Inv (SegMap.node s v l r))
    (ih : ∀ (t' : SegMap K V) (seg' : Segment K), Inv t' →
      seg'.lower ≤ seg'.upper → RemGood t' (removeF n t' seg'))
    (hires1 : Inv res1) (hcov1 : Cov (SegMap.node s v l r) res1)
    (hnp1 : NewProper (SegMap.node s v l r) res1)
    (hside : ∀ x ∈ res1.segsM, x.upper ≤ inter.upper ∨ s.upper ≤ x.lower)
    (hsl : s.lower ≤ inter.lower) (hproper : inter.lower < inter.upper) :
    RemGood (SegMap.node s v l r)
      (if inter.upper < seg.upper then removeF n res1 ⟨inter.upper, seg.upper⟩
       else if inter.upper < s.upper then insRes (insertT res1 ⟨inter.upper, s.upper⟩ v)
       else .ok res1) := by
  by_cases hp1 : inter.upper < seg.upper
  · rw [if_pos hp1]
    exact remgood_comp hcov1 hnp1 (ih res1 ⟨inter.upper, seg.upper⟩ hires1 hp1.le)
  · rw [if_neg hp1]
    by_cases hp2 : inter.upper < s.upper
    · rw [if_pos hp2]
      have hcompat : ∀ x ∈ res1.segsM, SegCompat ⟨inter.upper, s.upper⟩ x := by
        intro x hx
        rcases hside x hx with h1 | h2
        · refine ⟨Or.inr h1, fun hc => ?_⟩
          rw [← hc] at h1
          exact absurd hp2 (not_lt.mpr h1)
        · refine ⟨Or.inl h2, fun hc => ?_⟩
          rw [← hc] at h2
          exact absurd hp2 (not_lt.mpr h2)
      obtain ⟨t2, ht2, hinvt2, hsegst2⟩ :=
        ins_good (g := ⟨inter.upper, s.upper⟩) v hires1 hp2.le hcompat
      rw [ht2]
      refine ⟨hinvt2, ?_, ?_⟩
      · intro x hx
        rw [hsegst2] at hx
        rcases Multiset.mem_cons.mp hx with rfl | hx
        · exact ⟨s, mem_segs_root s v l r, hsl.trans hproper.le, le_refl _⟩
        · exact hcov1 x hx
      · intro x hx
        rw [hsegst2] at hx
        rcases Multiset.mem_cons.mp hx with rfl | hx
        · exact Or.inr hp2
        · exact hnp1 x hx
    · rw [if_neg hp2]
      exact ⟨hires1, hcov1, hnp1⟩

end SegMap

namespace SegMap

variable {K V : Type} [LinearOrder K]

/-- Compatibility of the left fragment in the interior empty-target
branch of `remove`/`update_entry`. -/
theorem a4_compat1 {s : Segment K} {v : V} {l r : SegMap K V} {seg : Segment K}
    (hinv : Inv (SegMap.node s v l r)) (hemp : seg.lower = seg.upper)
    (hsl : s.lower < seg.lower) (hsu : seg.upper < s.upper) :
    ∀ u ∈ (excise l r).segsM, SegCompat ⟨s.lower, seg.lower⟩ u := by
  obtain ⟨hwf, hL, hR, il, ir⟩ := inv_node_iff.mp hinv
  intro u hu
  rcases Multiset.mem_add.mp (Multiset.mem_of_le (excise_segs_le l r) hu) with hul | hur
  · refine ⟨Or.inr (hL u hul).1, fun hc => ?_⟩
    have h1 : u.upper ≤ s.lower := (hL u hul).1
    rw [← hc] at h1
    exact absurd hsl (not_lt.mpr h1)
  · refine ⟨Or.inl ((hemp ▸ hsu.le).trans (hR u hur).1), fun hc => ?_⟩
    have h1 : s.upper ≤ u.lower := (hR u hur).1
    rw [← hc] at h1
    exact absurd (hsl.trans_le (hemp ▸ hsu.le.trans h1)) (lt_irrefl _)

/-- The interior empty-target branch of `remove` is sound: both
reinsertions of the two halves of the split node succeed. -/
theorem rem_a4_step2 {s : Segment K} {v : V} {l r res1 : SegMap K V} {seg : Segment K}
    (hinv : Inv (SegMap.node s v l r)) (hemp : seg.lower = seg.upper)
    (hsl : s.lower < seg.lower) (hsu : seg.upper < s.upper)
    (h1 : insertT (excise l r) ⟨s.lower, seg.lower⟩ v = some res1) :
    RemGood (SegMap.node s v l r) (insRes (insertT res1 ⟨seg.upper, s.upper⟩ v)) := by
  obtain ⟨hwf, hL, hR, il, ir⟩ := inv_node_iff.mp hinv
  have hexc_mem : ∀ u ∈ (excise l r).segsM, u ∈ l.segsM ∨ u ∈ r.segsM := by
    intro u hu
    exact Multiset.mem_add.mp (Multiset.mem_of_le (excise_segs_le l r) hu)
  have hinv1 : Inv res1 :=
    insert_inv (g := ⟨s.lower, seg.lower⟩) (excise_inv hinv) hsl.le h1
  have hsegs1 : res1.segsM = (⟨s.lower, seg.lower⟩ : Segment K) ::ₘ (excise l r).segsM :=
    insert_segs h1
  have hcompat : ∀ x ∈ res1.segsM, SegCompat ⟨seg.upper, s.upper⟩ x := by
    intro x hx
    rw [hsegs1] at hx
    rcases Multiset.mem_cons.mp hx with rfl | hx
    · refine ⟨Or.inr (hemp ▸ le_refl _), fun hc => ?_⟩
      have := congrArg Segment.lower hc
      simp only at this
      exact absurd (hsl.trans_le (hemp ▸ this.le)) (lt_irrefl _)
    · rcases hexc_mem x hx with hxl | hxr
      · refine ⟨Or.inr ((hL x hxl).1.trans (hsl.le.trans (hemp ▸ le_refl _))), fun hc => ?_⟩
        have h2 : x.upper ≤ s.lower := (hL x hxl).1
        rw [← hc] at h2
        exact absurd (hsl.trans_le (hemp ▸ hsu.le.trans h2)) (lt_irrefl _)
      · refine ⟨Or.inl (hR x hxr).1, fun hc => ?_⟩
        have h2 : s.upper ≤ x.lower := (hR x hxr).1
        rw [← hc] at h2
        exact absurd (hsu.trans_le h2) (lt_irrefl _)
  obtain ⟨t2, ht2, hinvt2, hsegst2⟩ :=
    ins_good (g := ⟨seg.upper, s.upper⟩) v hinv1 hsu.le hcompat
  rw [ht2]
  refine ⟨hinvt2, ?_, ?_⟩
  · intro x hx
    rw [hsegst2] at hx
    rcases Multiset.mem_cons.mp hx with rfl | hx
    · exact ⟨s, mem_segs_root s v l r, (hsl.trans_le (hemp ▸ le_refl _)).le, le_refl _⟩
    · rw [hsegs1] at hx
      rcases Multiset.mem_cons.mp hx with rfl | hx
      · exact ⟨s, mem_segs_root s v l r, le_refl _, hemp.trans_le hsu.le⟩
      · exact cov_of_segs_le (excise_segs_le_node s v l r) x hx
  · intro x hx
    rw [hsegst2] at hx
    rcases Multiset.mem_cons.mp hx with rfl | hx
    · exact Or.inr hsu
    · rw [hsegs1] at hx
      rcases Multiset.mem_cons.mp hx with rfl | hx
      · exact Or.inr hsl
      · exact Or.inl (Multiset.mem_of_le (excise_segs_le_node s v l r) hx)

end SegMap

namespace SegMap

variable {K V : Type} [LinearOrder K]

/-- Main soundness of `remove` on an invariant-satisfying tree with a
well-formed target: it never reaches the overlap panic, and a normal
result keeps the invariant, stays within the original coverage and adds
only nonempty fragments. -/
theorem remove_good : ∀ (n : Nat) (t : SegMap K V) (seg : Segment K),
    Inv t → seg.lower ≤ seg.upper → RemGood t (removeF n t seg) := by
  intro n
  induction n with
  | zero => intro t seg _ _; exact trivial
  | succ n ih =>
    intro t seg hinv hwfs
    cases t with
    | nil =>
      exact ⟨trivial, fun x hx => absurd hx (by simp), fun x hx => absurd hx (by simp)⟩
    | node s v l r =>
      obtain ⟨hwf, hL, hR, il, ir⟩ := inv_node_iff.mp hinv
      simp only [removeF]
      by_cases hemp : seg.isEmpty
      · rw [if_pos hemp]
        by_cases henc : s.encloses seg
        · rw [if_pos henc]
          by_cases heq : seg.lower = s.lower ∧ seg.upper = s.upper
          · rw [if_pos heq]
            exact ⟨excise_inv hinv, cov_of_segs_le (excise_segs_le_node s v l r),
              newproper_of_segs_le (excise_segs_le_node s v l r)⟩
          · rw [if_neg heq]
            by_cases h2 : seg.lower = s.lower
            · rw [if_pos h2]
              exact remgood_left hinv (ih l seg il hwfs)
            · rw [if_neg h2]
              by_cases h3 : seg.upper = s.upper
              · rw [if_pos h3]
                exact remgood_right hinv (ih r seg ir hwfs)
              · rw [if_neg h3]
                have hsl : s.lower < seg.lower := lt_of_le_of_ne henc.1 (Ne.symm h2)
                have hsu : seg.upper < s.upper := lt_of_le_of_ne henc.2 h3
                cases hres : insertT (excise l r) ⟨s.lower, seg.lower⟩ v with
                | none =>
                  obtain ⟨t1, ht1⟩ := insert_of_compat (g := ⟨s.lower, seg.lower⟩) v
                    (a4_compat1 hinv hemp hsl hsu)
                  rw [ht1] at hres
                  cases hres
                | some res1 =>
                  exact rem_a4_step2 hinv hemp hsl hsu hres
        · rw [if_neg henc]
          by_cases h4 : seg.upper < s.lower
          · rw [if_pos h4]
            exact remgood_left hinv (ih l seg il hwfs)
          · rw [if_neg h4]
            exact remgood_right hinv (ih r seg ir hwfs)
      · rw [if_neg hemp]
        split
        · rename_i inter hi
          by_cases hie : inter.isEmpty
          · rw [if_pos hie]
            by_cases h5 : seg.lower = s.upper
            · rw [if_pos h5]
              exact remgood_right hinv (ih r seg ir hwfs)
            · rw [if_neg h5]
              exact remgood_left hinv (ih l seg il hwfs)
          · rw [if_neg hie]
            obtain ⟨hc1, hc2, hil, hiu⟩ := inter_spec hi
            have hsl : s.lower ≤ inter.lower := hil ▸ le_max_right _ _
            have hsegl : seg.lower ≤ inter.lower := hil ▸ le_max_left _ _
            have hius : inter.upper ≤ s.upper := hiu ▸ min_le_right _ _
            have hwfint : inter.lower ≤ inter.upper := by
              rw [hil, hiu]
              exact max_le (le_min hwfs hc1) (le_min hc2 hwf)
            have hproper : inter.lower < inter.upper :=
              lt_of_le_of_ne hwfint (fun hcc => hie hcc)
            have hlow : ¬ seg.lower < inter.lower → inter.lower = seg.lower :=
              fun h => le_antisymm (not_lt.mp h) hsegl
            obtain ⟨hnv, hok⟩ :=
              rem_phase1 (n := n) (v := v) (g := seg) hinv ih hsl hsegl hlow hproper hius
            cases hp1 : (if seg.lower < inter.lower then
                removeF n (excise l r) ⟨seg.lower, inter.lower⟩
              else if s.lower < inter.lower then
                insRes (insertT (excise l r) ⟨s.lower, inter.lower⟩ v)
              else .ok (excise l r)) with
            | diverge => exact trivial
            | violation => exact absurd hp1 hnv
            | ok res1 =>
              obtain ⟨hinv1, hcov1, hnp1, hside⟩ := hok res1 hp1
              exact rem_phase2 hinv ih hinv1 hcov1 hnp1 hside hsl hproper
        · rename_i hi
          by_cases h6 : s.upper < seg.lower
          · rw [if_pos h6]
            exact remgood_right hinv (ih r seg ir hwfs)
          · rw [if_neg h6]
            exact remgood_left hinv (ih l seg il hwfs)

end SegMap

namespace SegMap

variable {K V : Type} [LinearOrder K]

/-- Soundness package for one `update_entry` run on an
invariant-satisfying tree without zero-width stored segments and with a
well-formed target: no contract violation, and a normal result keeps
the invariant, stays within the original coverage extended by the
target, and (for a proper target) keeps all stored segments proper. -/
def UpdOK (t0 : SegMap K V) (seg : Segment K) : RunResult (SegMap K V) → Prop
  | .diverge => True
  | .violation => False
  | .ok r => Inv r ∧ CovT t0 seg r ∧ (seg.lower < seg.upper → AllProper r)

theorem allproper_of_segs_le {t r : SegMap K V} (h : r.segsM ≤ t.segsM)
    (hap : AllProper t) : AllProper r :=
  fun x hx => hap x (Multiset.mem_of_le h hx)

theorem covt_of_segs_le {t0 r : SegMap K V} {seg : Segment K}
    (h : r.segsM ≤ t0.segsM) : CovT t0 seg r :=
  fun x hx => Or.inl ⟨x, Multiset.mem_of_le h hx, le_refl _, le_refl _⟩

theorem covt_comp {t0 t1 r : SegMap K V} {seg seg' : Segment K}
    (h1 : CovT t0 seg t1) (h2 : CovT t1 seg' r)
    (hsub1 : seg.lower ≤ seg'.lower) (hsub2 : seg'.upper ≤ seg.upper) :
    CovT t0 seg r := by
  intro x hx
  rcases h2 x hx with ⟨u, hu, h3, h4⟩ | ⟨h3, h4⟩
  · rcases h1 u hu with ⟨w, hw, h5, h6⟩ | ⟨h5, h6⟩
    · exact Or.inl ⟨w, hw, h5.trans h3, h4.trans h6⟩
    · exact Or.inr ⟨h5.trans h3, h4.trans h6⟩
  · exact Or.inr ⟨hsub1.trans h3, h4.trans hsub2⟩

/-- Chaining soundness packages of `update_entry` through an
intermediate tree along a proper sub-target. -/
theorem updok_comp {t0 t1 : SegMap K V} {seg seg' : Segment K}
    {res : RunResult (SegMap K V)}
    (hcov : CovT t0 seg t1) (h : UpdOK t1 seg' res)
    (hsub1 : seg.lower ≤ seg'.lower) (hsub2 : seg'.upper ≤ seg.upper)
    (hp : seg'.lower < seg'.upper) : UpdOK t0 seg res := by
  cases res with
  | diverge => trivial
  | violation => exact h.elim
  | ok r => exact ⟨h.1, covt_comp hcov h.2.1 hsub1 hsub2, fun _ => h.2.2 hp⟩

/-- A touching (empty) intersection of two proper segments means they
abut: one's upper bound is the other's lower bound. -/
theorem upd_touch {seg s inter : Segment K}
    (hsp : s.lower < s.upper) (hsegp : seg.lower < seg.upper)
    (hil : inter.lower = max seg.lower s.lower)
    (hiu : inter.upper = min seg.upper s.upper)
    (he : inter.lower = inter.upper) :
    seg.upper = s.lower ∨ seg.lower = s.upper := by
  rw [hil, hiu] at he
  rcases le_total seg.lower s.lower with h | h
  · rw [max_eq_right h] at he
    rcases le_total seg.upper s.upper with h2 | h2
    · rw [min_eq_left h2] at he
      exact Or.inl he.symm
    · rw [min_eq_right h2] at he
      exact absurd (he ▸ hsp) (lt_irrefl _)
  · rw [max_eq_left h] at he
    rcases le_total seg.upper s.upper with h2 | h2
    · rw [min_eq_left h2] at he
      exact absurd (he ▸ hsegp) (lt_irrefl _)
    · rw [min_eq_right h2] at he
      exact Or.inr he

/-- Rebuilding a node above a well-behaved left-subtree `update_entry`
result keeps the soundness package, provided the target sits at or
below the node's lower bound. -/
theorem updok_left {s : Segment K} {v : V} {l r : SegMap K V} {seg : Segment K}
    (hinv : Inv (SegMap.node s v l r)) (hap : AllProper (SegMap.node s v l r))
    (hts : seg.upper ≤ s.lower) {res : RunResult (SegMap K V)}
    (h : UpdOK l seg res) :
    UpdOK (SegMap.node s v l r) seg (res.map fun l' => SegMap.node s v l' r) := by
  obtain ⟨hwf, hL, hR, il, ir⟩ := inv_node_iff.mp hinv
  have hsp : s.lower < s.upper := hap s (mem_segs_root s v l r)
  cases res with
  | diverge => trivial
  | violation => exact h.elim
  | ok l' =>
    obtain ⟨hinv', hcov, hap'⟩ := h
    have hup : ∀ x ∈ l'.segsM, x.upper ≤ s.lower := by
      intro x hx
      rcases hcov x hx with ⟨u, hu, h1, h2⟩ | ⟨h1, h2⟩
      · exact h2.trans (hL u hu).1
      · exact h2.trans hts
    refine ⟨?_, ?_, ?_⟩
    · refine inv_node_iff.mpr ⟨hwf, ?_, hR, hinv', ir⟩
      intro x hx
      refine ⟨hup x hx, fun hc => ?_⟩
      subst hc
      exact absurd (hsp.trans_le (hup x hx)) (lt_irrefl _)
    · intro x hx
      rcases by simpa using hx with rfl | hx | hx
      · exact Or.inl ⟨x, by simp, le_refl _, le_refl _⟩
      · rcases hcov x hx with ⟨u, hu, h1, h2⟩ | hin
        · exact Or.inl ⟨u, mem_segs_left s v r hu, h1, h2⟩
        · exact Or.inr hin
      · exact Or.inl ⟨x, mem_segs_right s v l hx, le_refl _, le_refl _⟩
    · intro hpseg x hx
      rcases by simpa using hx with rfl | hx | hx
      · exact hsp
      · exact hap' hpseg x hx
      · exact hap x (mem_segs_right s v l hx)

/-- Mirror image of `updok_left` for the right subtree. -/
theorem updok_right {s : Segment K} {v : V} {l r : SegMap K V} {seg : Segment K}
    (hinv : Inv (SegMap.node s v l r)) (hap : AllProper (SegMap.node s v l r))
    (hts : s.upper ≤ seg.lower) {res : RunResult (SegMap K V)}
    (h : UpdOK r seg res) :
    UpdOK (SegMap.node s v l r) seg (res.map fun r' => SegMap.node s v l r') := by
  obtain ⟨hwf, hL, hR, il, ir⟩ := inv_node_iff.mp hinv
  have hsp : s.lower < s.upper := hap s (mem_segs_root s v l r)
  cases res with
  | diverge => trivial
  | violation => exact h.elim
  | ok r' =>
    obtain ⟨hinv', hcov, hap'⟩ := h
    have hlo : ∀ x ∈ r'.segsM, s.upper ≤ x.lower := by
      intro x hx
      rcases hcov x hx with ⟨u, hu, h1, h2⟩ | ⟨h1, h2⟩
      · exact (hR u hu).1.trans h1
      · exact hts.trans h1
    refine ⟨?_, ?_, ?_⟩
    · refine inv_node_iff.mpr ⟨hwf, hL, ?_, il, hinv'⟩
      intro x hx
      refine ⟨hlo x hx, fun hc => ?_⟩
      subst hc
      exact absurd (hsp.trans_le (hlo x hx)) (lt_irrefl _)
    · intro x hx
      rcases by simpa using hx with rfl | hx | hx
      · exact Or.inl ⟨x, by simp, le_refl _, le_refl _⟩
      · exact Or.inl ⟨x, mem_segs_left s v r hx, le_refl _, le_refl _⟩
      · rcases hcov x hx with ⟨u, hu, h1, h2⟩ | hin
        · exact Or.inl ⟨u, mem_segs_right s v l hu, h1, h2⟩
        · exact Or.inr hin
    · intro hpseg x hx
      rcases by simpa using hx with rfl | hx | hx
      · exact hsp
      · exact hap x (mem_segs_left s v r hx)
      · exact hap' hpseg x hx

end SegMap

namespace SegMap

variable {K V : Type} [LinearOrder K]

/-- Phase 0 of the positive-overlap branch of `update_entry`: applying
the update function to the intersection and reinserting its value never
fails, and the intermediate tree is well-behaved. -/
theorem upd_phase0 {s : Segment K} {v : V} {l r : SegMap K V}
    {seg inter : Segment K} {f : Segment K → Option V → Option V}
    (hinv : Inv (SegMap.node s v l r)) (hap : AllProper (SegMap.node s v l r))
    (hproper : inter.lower < inter.upper)
    (hsl : s.lower ≤ inter.lower) (hius : inter.upper ≤ s.upper) :
    (match f inter (some v) with
      | some w => insertT (excise l r) inter w
      | none => some (excise l r)) ≠ none ∧
    (∀ res0, (match f inter (some v) with
      | some w => insertT (excise l r) inter w
      | none => some (excise l r)) = some res0 →
      Inv res0 ∧ AllProper res0 ∧ CovT (SegMap.node s v l r) seg res0 ∧
      (∀ x ∈ res0.segsM, x.upper ≤ s.lower ∨ s.upper ≤ x.lower ∨
        (inter.lower ≤ x.lower ∧ x.upper ≤ inter.upper))) := by
  obtain ⟨hwf, hL, hR, il, ir⟩ := inv_node_iff.mp hinv
  have hexc_mem : ∀ u ∈ (excise l r).segsM, u ∈ l.segsM ∨ u ∈ r.segsM := by
    intro u hu
    exact Multiset.mem_add.mp (Multiset.mem_of_le (excise_segs_le l r) hu)
  have hside_exc : ∀ x ∈ (excise l r).segsM, x.upper ≤ s.lower ∨ s.upper ≤ x.lower ∨
      (inter.lower ≤ x.lower ∧ x.upper ≤ inter.upper) := by
    intro x hx
    rcases hexc_mem x hx with hxl | hxr
    · exact Or.inl (hL x hxl).1
    · exact Or.inr (Or.inl (hR x hxr).1)
  cases hf : f inter (some v) with
  | none =>
    simp only [hf]
    refine ⟨fun hc => Option.noConfusion hc, fun res0 hres0 => ?_⟩
    have h0 : res0 = excise l r := by injection hres0 with h; exact h.symm
    subst h0
    exact ⟨excise_inv hinv, allproper_of_segs_le (excise_segs_le_node s v l r) hap,
      covt_of_segs_le (excise_segs_le_node s v l r), hside_exc⟩
  | some w =>
    simp only [hf]
    have hcompat : ∀ u ∈ (excise l r).segsM, SegCompat inter u := by
      intro u hu
      rcases hexc_mem u hu with hul | hur
      · refine ⟨Or.inr ((hL u hul).1.trans hsl), fun hc => ?_⟩
        have h1 : u.upper ≤ s.lower := (hL u hul).1
        rw [← hc] at h1
        exact absurd (hproper.trans_le (h1.trans hsl)) (lt_irrefl _)
      · refine ⟨Or.inl (hius.trans (hR u hur).1), fun hc => ?_⟩
        have h1 : s.upper ≤ u.lower := (hR u hur).1
        rw [← hc] at h1
        exact absurd (hproper.trans_le (hius.trans h1)) (lt_irrefl _)
    obtain ⟨t1, ht1, hinvt1, hsegst1⟩ :=
      ins_good (g := inter) w (excise_inv hinv) hproper.le hcompat
    rw [ht1]
    refine ⟨fun hc => Option.noConfusion hc, fun res0 hres0 => ?_⟩
    have h0 : res0 = t1 := by injection hres0 with h; exact h.symm
    subst h0
    refine ⟨hinvt1, ?_, ?_, ?_⟩
    · intro x hx
      rw [hsegst1] at hx
      rcases Multiset.mem_cons.mp hx with rfl | hx
      · exact hproper
      · exact allproper_of_segs_le (excise_segs_le_node s v l r) hap x hx
    · intro x hx
      rw [hsegst1] at hx
      rcases Multiset.mem_cons.mp hx with rfl | hx
      · exact Or.inl ⟨s, mem_segs_root s v l r, hsl, hius⟩
      · exact covt_of_segs_le (excise_segs_le_node s v l r) x hx
    · intro x hx
      rw [hsegst1] at hx
      rcases Multiset.mem_cons.mp hx with rfl | hx
      · exact Or.inr (Or.inr ⟨le_refl _, le_refl _⟩)
      · exact hside_exc x hx

/-- Phase 1 of the positive-overlap branch of `update_entry`: handling
the part of the target below the intersection. -/
theorem upd_phase1 {n : Nat} {s : Segment K} {v : V} {l r res0 : SegMap K V}
    {seg inter : Segment K} {f : Segment K → Option V → Option V}
    (hap : AllProper (SegMap.node s v l r))
    (ih : ∀ (t' : SegMap K V) (seg' : Segment K), Inv t' → AllProper t' →
      seg'.lower ≤ seg'.upper → UpdOK t' seg' (updateEntryF n t' seg' f))
    (hinv0 : Inv res0) (hap0 : AllProper res0)
    (hcov0 : CovT (SegMap.node s v l r) seg res0)
    (hside0 : ∀ x ∈ res0.segsM, x.upper ≤ s.lower ∨ s.upper ≤ x.lower ∨
      (inter.lower ≤ x.lower ∧ x.upper ≤ inter.upper))
    (hsl : s.lower ≤ inter.lower) (hsegl : seg.lower ≤ inter.lower)
    (hproper : inter.lower < inter.upper)
    (hius : inter.upper ≤ s.upper) (hiuseg : inter.upper ≤ seg.upper) :
    (if seg.lower < inter.lower then
        updateEntryF n res0 ⟨seg.lower, inter.lower⟩ f
      else if s.lower < inter.lower then
        insRes (insertT res0 ⟨s.lower, inter.lower⟩ v)
      else .ok res0) ≠ .violation ∧
    (∀ res1, (if seg.lower < inter.lower then
        updateEntryF n res0 ⟨seg.lower, inter.lower⟩ f
      else if s.lower < inter.lower then
        insRes (insertT res0 ⟨s.lower, inter.lower⟩ v)
      else .ok res0) = .ok res1 →
      Inv res1 ∧ AllProper res1 ∧ CovT (SegMap.node s v l r) seg res1 ∧
      (∀ x ∈ res1.segsM, x.upper ≤ inter.upper ∨ s.upper ≤ x.lower)) := by
  have hsp : s.lower < s.upper := hap s (mem_segs_root s v l r)
  have hside0' : ∀ x ∈ res0.segsM, x.upper ≤ inter.upper ∨ s.upper ≤ x.lower := by
    intro x hx
    rcases hside0 x hx with h1 | h2 | h3
    · exact Or.inl (h1.trans (hsl.trans hproper.le))
    · exact Or.inr h2
    · exact Or.inl h3.2
  by_cases hp1 : seg.lower < inter.lower
  · rw [if_pos hp1]
    have hg := ih res0 ⟨seg.lower, inter.lower⟩ hinv0 hap0 hp1.le
    cases hres : updateEntryF n res0 ⟨seg.lower, inter.lower⟩ f with
    | diverge =>
      exact ⟨fun hc => RunResult.noConfusion hc, fun res1 hc => RunResult.noConfusion hc⟩
    | violation => rw [hres] at hg; exact hg.elim
    | ok r1 =>
      rw [hres] at hg
      obtain ⟨inv1, cov1, hap1f⟩ := hg
      refine ⟨fun hc => RunResult.noConfusion hc, fun res1 hres1 => ?_⟩
      have h0 : res1 = r1 := by injection hres1 with h; exact h.symm
      subst h0
      refine ⟨inv1, hap1f hp1,
        covt_comp hcov0 cov1 (le_refl _) (hproper.le.trans hiuseg), ?_⟩
      intro x hx
      rcases cov1 x hx with ⟨u, hu, h1, h2⟩ | ⟨h1, h2⟩
      · rcases hside0' u hu with h3 | h3
        · exact Or.inl (h2.trans h3)
        · exact Or.inr (h3.trans h1)
      · exact Or.inl (h2.trans hproper.le)
  · rw [if_neg hp1]
    by_cases hp2 : s.lower < inter.lower
    · rw [if_pos hp2]
      have hcompat : ∀ u ∈ res0.segsM, SegCompat ⟨s.lower, inter.lower⟩ u := by
        intro u hu
        rcases hside0 u hu with h1 | h2 | h3
        · refine ⟨Or.inr h1, fun hc => ?_⟩
          rw [← hc] at h1
          exact absurd hp2 (not_lt.mpr h1)
        · refine ⟨Or.inl (hproper.le.trans (hius.trans h2)), fun hc => ?_⟩
          rw [← hc] at h2
          exact absurd (hsp.trans_le h2) (lt_irrefl _)
        · refine ⟨Or.inl h3.1, fun hc => ?_⟩
          rw [← hc] at h3
          exact absurd hp2 (not_lt.mpr h3.1)
      obtain ⟨t1, ht1, hinvt1, hsegst1⟩ :=
        ins_good (g := ⟨s.lower, inter.lower⟩) v hinv0 hp2.le hcompat
      rw [ht1]
      refine ⟨fun hc => RunResult.noConfusion hc, fun res1 hres1 => ?_⟩
      have h0 : res1 = t1 := by
        simp only [insRes] at hres1
        injection hres1 with h; exact h.symm
      subst h0
      refine ⟨hinvt1, ?_, ?_, ?_⟩
      · intro x hx
        rw [hsegst1] at hx
        rcases Multiset.mem_cons.mp hx with rfl | hx
        · exact hp2
        · exact hap0 x hx
      · intro x hx
        rw [hsegst1] at hx
        rcases Multiset.mem_cons.mp hx with rfl | hx
        · exact Or.inl ⟨s, mem_segs_root s v l r, le_refl _, hproper.le.trans hius⟩
        · exact hcov0 x hx
      · intro x hx
        rw [hsegst1] at hx
        rcases Multiset.mem_cons.mp hx with rfl | hx
        · exact Or.inl hproper.le
        · exact hside0' x hx
    · rw [if_neg hp2]
      refine ⟨fun hc => RunResult.noConfusion hc, fun res1 hres1 => ?_⟩
      have h0 : res1 = res0 := by injection hres1 with h; exact h.symm
      subst h0
      exact ⟨hinv0, hap0, hcov0, hside0'⟩

/-- Phase 2 of the positive-overlap branch of `update_entry`: handling
the part of the target above the intersection. -/
theorem upd_phase2 {n : Nat} {s : Segment K} {v : V} {l r res1 : SegMap K V}
    {seg inter : Segment K} {f : Segment K → Option V → Option V}
    (ih : ∀ (t' : SegMap K V) (seg' : Segment K), Inv t' → AllProper t' →
      seg'.lower ≤ seg'.upper → UpdOK t' seg' (updateEntryF n t' seg' f))
    (hinv1 : Inv res1) (hap1 : AllProper res1)
    (hcov1 : CovT (SegMap.node s v l r) seg res1)
    (hside : ∀ x ∈ res1.segsM, x.upper ≤ inter.upper ∨ s.upper ≤ x.lower)
    (hsl : s.lower ≤ inter.lower) (hsegl : seg.lower ≤ inter.lower)
    (hproper : inter.lower < inter.upper) :
    UpdOK (SegMap.node s v l r) seg
      (if inter.upper < seg.upper then updateEntryF n res1 ⟨inter.upper, seg.upper⟩ f
       else if inter.upper < s.upper then insRes (insertT res1 ⟨inter.upper, s.upper⟩ v)
       else .ok res1) := by
  by_cases hp1 : inter.upper < seg.upper
  · rw [if_pos hp1]
    exact updok_comp hcov1
      (ih res1 ⟨inter.upper, seg.upper⟩ hinv1 hap1 hp1.le)
      (hsegl.trans hproper.le) (le_refl _) hp1
  · rw [if_neg hp1]
    by_cases hp2 : inter.upper < s.upper
    · rw [if_pos hp2]
      have hcompat : ∀ x ∈ res1.segsM, SegCompat ⟨inter.upper, s.upper⟩ x := by
        intro x hx
        rcases hside x hx with h1 | h2
        · refine ⟨Or.inr h1, fun hc => ?_⟩
          rw [← hc] at h1
          exact absurd hp2 (not_lt.mpr h1)
        · refine ⟨Or.inl h2, fun hc => ?_⟩
          rw [← hc] at h2
          exact absurd hp2 (not_lt.mpr h2)
      obtain ⟨t2, ht2, hinvt2, hsegst2⟩ :=
        ins_good (g := ⟨inter.upper, s.upper⟩) v hinv1 hp2.le hcompat
      rw [ht2]
      refine ⟨hinvt2, ?_, ?_⟩
      · intro x hx
        rw [hsegst2] at hx
        rcases Multiset.mem_cons.mp hx with rfl | hx
        · exact Or.inl ⟨s, mem_segs_root s v l r, hsl.trans hproper.le, le_refl _⟩
        · exact hcov1 x hx
      · intro hpseg x hx
        rw [hsegst2] at hx
        rcases Multiset.mem_cons.mp hx with rfl | hx
        · exact hp2
        · exact hap1 x hx
    · rw [if_neg hp2]
      exact ⟨hinv1, hcov1, fun _ => hap1⟩

end SegMap

namespace SegMap

variable {K V : Type} [LinearOrder K]

/-- Tail of the strictly-interior empty-target branch of `update_entry`:
reinserting the two halves of the split node around the zero-width
target always succeeds and yields a well-behaved tree. -/
theorem upd_a4_tail {s : Segment K} {v : V} {l r res0 : SegMap K V} {seg : Segment K}
    (hinv : Inv (SegMap.node s v l r))
    (hemp : seg.lower = seg.upper) (hsl : s.lower < seg.lower)
    (hsu : seg.upper < s.upper)
    (hinv0 : Inv res0) (hcov0 : CovT (SegMap.node s v l r) seg res0)
    (hside0 : ∀ x ∈ res0.segsM, x.upper ≤ s.lower ∨ s.upper ≤ x.lower ∨
      (seg.lower ≤ x.lower ∧ x.upper ≤ seg.upper)) :
    UpdOK (SegMap.node s v l r) seg
      (match insertT res0 ⟨s.lower, seg.lower⟩ v with
        | none => RunResult.violation
        | some res1 => insRes (insertT res1 ⟨seg.upper, s.upper⟩ v)) := by
  have hsegsu : seg.lower < s.upper := by rw [hemp]; exact hsu
  have hsp : s.lower < s.upper := hsl.trans hsegsu
  have hcompat1 : ∀ u ∈ res0.segsM, SegCompat ⟨s.lower, seg.lower⟩ u := by
    intro u hu
    rcases hside0 u hu with h1 | h2 | h3
    · refine ⟨Or.inr h1, fun hc => ?_⟩
      rw [← hc] at h1
      exact absurd hsl (not_lt.mpr h1)
    · refine ⟨Or.inl (hsegsu.le.trans h2), fun hc => ?_⟩
      rw [← hc] at h2
      exact absurd (hsp.trans_le h2) (lt_irrefl _)
    · refine ⟨Or.inl h3.1, fun hc => ?_⟩
      rw [← hc] at h3
      exact absurd hsl (not_lt.mpr h3.1)
  obtain ⟨t1, ht1, hinvt1, hsegst1⟩ :=
    ins_good (g := ⟨s.lower, seg.lower⟩) v hinv0 hsl.le hcompat1
  rw [ht1]
  have hcompat2 : ∀ x ∈ t1.segsM, SegCompat ⟨seg.upper, s.upper⟩ x := by
    intro x hx
    rw [hsegst1] at hx
    rcases Multiset.mem_cons.mp hx with rfl | hx
    · refine ⟨Or.inr hemp.le, fun hc => ?_⟩
      have h4 := congrArg Segment.lower hc
      simp only at h4
      have h5 := hsl
      rw [hemp] at h5
      exact absurd (h5.trans_le h4.le) (lt_irrefl _)
    · rcases hside0 x hx with h1 | h2 | h3
      · refine ⟨Or.inr (h1.trans (hsl.le.trans hemp.le)), fun hc => ?_⟩
        rw [← hc] at h1
        exact absurd (hsp.trans_le h1) (lt_irrefl _)
      · refine ⟨Or.inl h2, fun hc => ?_⟩
        rw [← hc] at h2
        exact absurd (hsu.trans_le h2) (lt_irrefl _)
      · refine ⟨Or.inr h3.2, fun hc => ?_⟩
        rw [← hc] at h3
        exact absurd (hsu.trans_le h3.2) (lt_irrefl _)
  obtain ⟨t2, ht2, hinvt2, hsegst2⟩ :=
    ins_good (g := ⟨seg.upper, s.upper⟩) v hinvt1 hsu.le hcompat2
  show UpdOK (SegMap.node s v l r) seg (insRes (insertT t1 ⟨seg.upper, s.upper⟩ v))
  rw [ht2]
  refine ⟨hinvt2, ?_, ?_⟩
  · intro x hx
    rw [hsegst2, hsegst1] at hx
    rcases Multiset.mem_cons.mp hx with rfl | hx
    · exact Or.inl ⟨s, mem_segs_root s v l r, (hsl.trans_le hemp.le).le, le_refl _⟩
    rcases Multiset.mem_cons.mp hx with rfl | hx
    · exact Or.inl ⟨s, mem_segs_root s v l r, le_refl _, hsegsu.le⟩
    · exact hcov0 x hx
  · intro hpseg
    exact absurd hemp (ne_of_lt hpseg)

/-- The strictly-interior empty-target branch of `update_entry` is
sound: the optional zero-width insertion from the update function and
both half reinsertions succeed. -/
theorem upd_a4 {s : Segment K} {v : V} {l r : SegMap K V} {seg : Segment K}
    {f : Segment K → Option V → Option V}
    (hinv : Inv (SegMap.node s v l r))
    (hemp : seg.lower = seg.upper) (hsl : s.lower < seg.lower)
    (hsu : seg.upper < s.upper) :
    UpdOK (SegMap.node s v l r) seg
      (match (match f seg (some v) with
        | some w => insertT (excise l r) seg w
        | none => some (excise l r)) with
      | none => RunResult.violation
      | some res0 =>
        match insertT res0 ⟨s.lower, seg.lower⟩ v with
        | none => RunResult.violation
        | some res1 => insRes (insertT res1 ⟨seg.upper, s.upper⟩ v)) := by
  obtain ⟨hwf, hL, hR, il, ir⟩ := inv_node_iff.mp hinv
  have hsegsu : seg.lower < s.upper := by rw [hemp]; exact hsu
  have hexc_mem : ∀ u ∈ (excise l r).segsM, u ∈ l.segsM ∨ u ∈ r.segsM := by
    intro u hu
    exact Multiset.mem_add.mp (Multiset.mem_of_le (excise_segs_le l r) hu)
  have hside_exc : ∀ x ∈ (excise l r).segsM, x.upper ≤ s.lower ∨ s.upper ≤ x.lower ∨
      (seg.lower ≤ x.lower ∧ x.upper ≤ seg.upper) := by
    intro x hx
    rcases hexc_mem x hx with hxl | hxr
    · exact Or.inl (hL x hxl).1
    · exact Or.inr (Or.inl (hR x hxr).1)
  cases hf : f seg (some v) with
  | none =>
    simp only [hf]
    exact upd_a4_tail hinv hemp hsl hsu (excise_inv hinv)
      (covt_of_segs_le (excise_segs_le_node s v l r)) hside_exc
  | some w =>
    simp only [hf]
    have hcompatseg : ∀ u ∈ (excise l r).segsM, SegCompat seg u := by
      intro u hu
      rcases hexc_mem u hu with hul | hur
      · refine ⟨Or.inr ((hL u hul).1.trans hsl.le), fun hc => ?_⟩
        have h1 : u.upper ≤ s.lower := (hL u hul).1
        rw [← hc] at h1
        exact absurd (hsl.trans_le (hemp.le.trans h1)) (lt_irrefl _)
      · refine ⟨Or.inl ((hsu.trans_le (hR u hur).1).le), fun hc => ?_⟩
        have h1 : s.upper ≤ u.lower := (hR u hur).1
        rw [← hc] at h1
        exact absurd (hsegsu.trans_le h1) (lt_irrefl _)
    obtain ⟨t0, ht0, hinvt0, hsegst0⟩ :=
      ins_good (g := seg) w (excise_inv hinv) hemp.le hcompatseg
    rw [ht0]
    refine upd_a4_tail hinv hemp hsl hsu hinvt0 ?_ ?_
    · intro x hx
      rw [hsegst0] at hx
      rcases Multiset.mem_cons.mp hx with rfl | hx
      · exact Or.inr ⟨le_refl _, le_refl _⟩
      · exact covt_of_segs_le (excise_segs_le_node s v l r) x hx
    · intro x hx
      rw [hsegst0] at hx
      rcases Multiset.mem_cons.mp hx with rfl | hx
      · exact Or.inr (Or.inr ⟨le_refl _, le_refl _⟩)
      · exact hside_exc x hx

end SegMap

namespace SegMap

variable {K V : Type} [LinearOrder K]

/-- Main soundness of `update_entry` on an invariant-satisfying tree
without zero-width stored segments and with a well-formed target: it
never reaches the overlap panic, and a normal result keeps the
invariant, stays within the original coverage extended by the target,
and (for a proper target) keeps all stored segments proper. -/
theorem update_good : ∀ (n : Nat) (t : SegMap K V) (seg : Segment K)
    (f : Segment K → Option V → Option V),
    Inv t → AllProper t → seg.lower ≤ seg.upper →
    UpdOK t seg (updateEntryF n t seg f) := by
  intro n
  induction n with
  | zero => intro t seg f _ _ _; exact trivial
  | succ n ih =>
    intro t seg f hinv hap hwfs
    have ih' : ∀ (t' : SegMap K V) (seg' : Segment K), Inv t' → AllProper t' →
        seg'.lower ≤ seg'.upper → UpdOK t' seg' (updateEntryF n t' seg' f) :=
      fun t' seg' h1 h2 h3 => ih t' seg' f h1 h2 h3
    cases t with
    | nil =>
      simp only [updateEntryF]
      cases hfv : f seg none with
      | some w =>
        refine ⟨?_, ?_, ?_⟩
        · exact inv_node_iff.mpr ⟨hwfs, by simp, by simp, trivial, trivial⟩
        · intro x hx
          rcases by simpa using hx with rfl
          exact Or.inr ⟨le_refl _, le_refl _⟩
        · intro hpseg x hx
          rcases by simpa using hx with rfl
          exact hpseg
      | none =>
        exact ⟨trivial, fun x hx => absurd hx (by simp), fun _ x hx => absurd hx (by simp)⟩
    | node s v l r =>
      obtain ⟨hwf, hL, hR, il, ir⟩ := inv_node_iff.mp hinv
      have hsp : s.lower < s.upper := hap s (mem_segs_root s v l r)
      have hapl : AllProper l := fun x hx => hap x (mem_segs_left s v r hx)
      have hapr : AllProper r := fun x hx => hap x (mem_segs_right s v l hx)
      simp only [updateEntryF]
      by_cases hemp : seg.isEmpty
      · rw [if_pos hemp]
        have hemp' : seg.lower = seg.upper := hemp
        by_cases henc : s.encloses seg
        · rw [if_pos henc]
          by_cases heq : seg.lower = s.lower ∧ seg.upper = s.upper
          · exfalso
            rw [← heq.1, ← heq.2] at hsp
            exact absurd hemp' (ne_of_lt hsp)
          · rw [if_neg heq]
            by_cases h2 : seg.lower = s.lower
            · rw [if_pos h2]
              exact updok_left hinv hap (hemp'.symm.trans h2).le (ih' l seg il hapl hwfs)
            · rw [if_neg h2]
              by_cases h3 : seg.upper = s.upper
              · rw [if_pos h3]
                exact updok_right hinv hap (h3.symm.trans hemp'.symm).le
                  (ih' r seg ir hapr hwfs)
              · rw [if_neg h3]
                have hsl : s.lower < seg.lower := lt_of_le_of_ne henc.1 (Ne.symm h2)
                have hsu : seg.upper < s.upper := lt_of_le_of_ne henc.2 h3
                exact upd_a4 hinv hemp' hsl hsu
        · rw [if_neg henc]
          by_cases h4 : seg.upper < s.lower
          · rw [if_pos h4]
            exact updok_left hinv hap h4.le (ih' l seg il hapl hwfs)
          · rw [if_neg h4]
            have h4' : s.lower ≤ seg.upper := not_lt.mp h4
            have h5 : s.upper ≤ seg.lower := by
              by_cases hsl2 : s.lower ≤ seg.lower
              · have h6 : ¬ seg.upper ≤ s.upper := fun hcc => henc ⟨hsl2, hcc⟩
                exact ((not_le.mp h6).trans_eq hemp'.symm).le
              · exact absurd (h4'.trans hemp'.ge) hsl2
            exact updok_right hinv hap h5 (ih' r seg ir hapr hwfs)
      · rw [if_neg hemp]
        have hsegp : seg.lower < seg.upper := lt_of_le_of_ne hwfs hemp
        split
        · rename_i inter hi
          by_cases hie : inter.isEmpty
          · rw [if_pos hie]
            obtain ⟨hc1, hc2, hil, hiu⟩ := inter_spec hi
            by_cases h5 : seg.lower = s.upper
            · rw [if_pos h5]
              exact updok_right hinv hap h5.ge (ih' r seg ir hapr hwfs)
            · rw [if_neg h5]
              have h6 : seg.upper = s.lower :=
                (upd_touch hsp hsegp hil hiu hie).resolve_right h5
              exact updok_left hinv hap h6.le (ih' l seg il hapl hwfs)
          · rw [if_neg hie]
            obtain ⟨hc1, hc2, hil, hiu⟩ := inter_spec hi
            have hsl : s.lower ≤ inter.lower := hil ▸ le_max_right _ _
            have hsegl : seg.lower ≤ inter.lower := hil ▸ le_max_left _ _
            have hius : inter.upper ≤ s.upper := hiu ▸ min_le_right _ _
            have hiuseg : inter.upper ≤ seg.upper := hiu ▸ min_le_left _ _
            have hwfint : inter.lower ≤ inter.upper := by
              rw [hil, hiu]
              exact max_le (le_min hwfs hc1) (le_min hc2 hwf)
            have hproper : inter.lower < inter.upper :=
              lt_of_le_of_ne hwfint (fun hcc => hie hcc)
            obtain ⟨hnn, hres0fact⟩ := upd_phase0 (f := f) hinv hap hproper hsl hius
            cases hres0 : (match f inter (some v) with
              | some w => insertT (excise l r) inter w
              | none => some (excise l r)) with
            | none => exact absurd hres0 hnn
            | some res0 =>
              obtain ⟨hinv0, hap0, hcov0, hside0⟩ := hres0fact res0 hres0
              obtain ⟨hnv, hok⟩ :=
                upd_phase1 hap ih' hinv0 hap0 hcov0 hside0 hsl hsegl hproper hius hiuseg
              show UpdOK (SegMap.node s v l r) seg
                (match (if seg.lower < inter.lower then
                    updateEntryF n res0 ⟨seg.lower, inter.lower⟩ f
                  else if s.lower < inter.lower then
                    insRes (insertT res0 ⟨s.lower, inter.lower⟩ v)
                  else .ok res0) with
                | .ok res1 =>
                  if inter.upper < seg.upper then
                    updateEntryF n res1 ⟨inter.upper, seg.upper⟩ f
                  else if inter.upper < s.upper then
                    insRes (insertT res1 ⟨inter.upper, s.upper⟩ v)
                  else .ok res1
                | e => e)
              cases hp1 : (if seg.lower < inter.lower then
                  updateEntryF n res0 ⟨seg.lower, inter.lower⟩ f
                else if s.lower < inter.lower then
                  insRes (insertT res0 ⟨s.lower, inter.lower⟩ v)
                else .ok res0) with
              | diverge => exact trivial
              | violation => exact absurd hp1 hnv
              | ok res1 =>
                obtain ⟨hinv1, hap1, hcov1, hside⟩ := hok res1 hp1
                exact upd_phase2 ih' hinv1 hap1 hcov1 hside hsl hsegl hproper
        · rename_i hi
          by_cases h6 : s.upper < seg.lower
          · rw [if_pos h6]
            exact updok_right hinv hap h6.le (ih' r seg ir hapr hwfs)
          · rw [if_neg h6]
            have hn := inter_none hi
            have h8 : seg.lower ≤ s.upper := not_lt.mp h6
            have h7 : seg.upper < s.lower := not_le.mp (fun hcc => hn ⟨h8, hcc⟩)
            exact updok_left hinv hap h7.le (ih' l seg il hapl hwfs)

end SegMap

namespace SegMap

variable {K V : Type} [LinearOrder K]

theorem upd_rem_eq : ∀ (n : Nat) (t : SegMap K V) (seg : Segment K),
    updateEntryF n t seg (fun _ _ => none) = removeF n t seg := by
  intro n
  induction n with
  | zero => intro t seg; rfl
  | succ n ih =>
    intro t seg
    cases t with
    | nil => rfl
    | node s v l r => simp only [updateEntryF, removeF, ih]

end SegMap

namespace SegMap

variable {K V : Type} [LinearOrder K]

/-- Point lookup is exactly membership of a containing entry, on an
invariant-satisfying tree. -/
theorem getEntry_iff {t : SegMap K V} (hinv : Inv t) {k : K} {u : Segment K} {w : V} :
    getEntry t k = some (u, w) ↔ (u, w) ∈ t.entriesM ∧ u.contains k := by
  induction t with
  | nil => simp [getEntry, entriesM]
  | node s v l r ihl ihr =>
    obtain ⟨hwf, hL, hR, il, ir⟩ := inv_node_iff.mp hinv
    constructor
    · intro h
      simp only [getEntry] at h
      split at h
      · rename_i hc
        injection h with h
        injection h with h1 h2
        subst h1; subst h2
        exact ⟨by simp, hc⟩
      · split at h
        · obtain ⟨hm, hcont⟩ := (ihl il).mp h
          exact ⟨by simp [hm], hcont⟩
        · obtain ⟨hm, hcont⟩ := (ihr ir).mp h
          exact ⟨by simp [hm], hcont⟩
    · rintro ⟨hm, hcont⟩
      rcases by simpa using hm with ⟨rfl, rfl⟩ | hm | hm
      · simp only [getEntry]
        rw [if_pos hcont]
      · have husegs := segsM_mem_of_entry hm
        have hklt : k < s.lower := hcont.2.trans_le (hL _ husegs).1
        have hns : ¬ s.contains k := fun hcc => absurd (hcc.1.trans_lt hklt) (lt_irrefl _)
        simp only [getEntry]
        rw [if_neg hns, if_pos hklt]
        exact (ihl il).mpr ⟨hm, hcont⟩
      · have husegs := segsM_mem_of_entry hm
        have hk2 : s.upper ≤ k := (hR _ husegs).1.trans hcont.1
        have hns : ¬ s.contains k := fun hcc => absurd (hk2.trans_lt hcc.2) (lt_irrefl _)
        simp only [getEntry]
        rw [if_neg hns, if_neg (not_lt.mpr (hwf.trans hk2))]
        exact (ihr ir).mpr ⟨hm, hcont⟩

/-- A key contained in no stored segment has no entry (no invariant
needed: the search only narrows). -/
theorem getEntry_none {t : SegMap K V} {k : K} :
    (∀ u ∈ t.segsM, ¬ u.contains k) → getEntry t k = none := by
  induction t with
  | nil => intro h; rfl
  | node s v l r ihl ihr =>
    intro h
    simp only [getEntry]
    rw [if_neg (h s (mem_segs_root s v l r))]
    split
    · exact ihl (fun u hu => h u (mem_segs_left s v r hu))
    · exact ihr (fun u hu => h u (mem_segs_right s v l hu))

theorem get_none {t : SegMap K V} {k : K}
    (h : ∀ u ∈ t.segsM, ¬ u.contains k) : get t k = none := by
  simp [get, getEntry_none h]

/-- On an invariant-satisfying tree the stored segments are pairwise
distinct. -/
theorem segs_nodup {t : SegMap K V} (hinv : Inv t) : t.segsM.Nodup := by
  induction t with
  | nil => simp
  | node s v l r ihl ihr =>
    obtain ⟨hwf, hL, hR, il, ir⟩ := inv_node_iff.mp hinv
    have hwfall := inv_wf hinv
    rw [segsM_node, Multiset.nodup_cons]
    constructor
    · intro hc
      rcases Multiset.mem_add.mp hc with hc | hc
      · exact (hL s hc).2 rfl
      · exact (hR s hc).2 rfl
    · rw [Multiset.nodup_add]
      refine ⟨ihl il, ihr ir, Multiset.disjoint_left.mpr ?_⟩
      intro x hxl hxr
      have h1 : x.upper ≤ s.lower := (hL x hxl).1
      have h2 : s.upper ≤ x.lower := (hR x hxr).1
      have h3 : x.lower ≤ x.upper := hwfall x (mem_segs_left s v r hxl)
      exact (hL x hxl).2 (seg_squeeze h1 h2 h3 hwf)

end SegMap

namespace SegMap

variable {K V : Type} [LinearOrder K]

/-- Removing a proper range that overlaps no stored segment leaves the
tree unchanged (given enough fuel). -/
theorem remove_noop : ∀ (t : SegMap K V) (seg : Segment K), Inv t →
    seg.lower < seg.upper →
    (∀ u ∈ t.segsM, seg.upper ≤ u.lower ∨ u.upper ≤ seg.lower) →
    ∀ n, size t < n → removeF n t seg = .ok t := by
  intro t
  induction t with
  | nil =>
    intro seg _ _ _ n hn
    cases n with
    | zero => exact absurd hn (by simp)
    | succ m => rfl
  | node s v l r ihl ihr =>
    intro seg hinv hp hdisj n hn
    obtain ⟨hwf, hL, hR, il, ir⟩ := inv_node_iff.mp hinv
    have hdl : ∀ u ∈ l.segsM, seg.upper ≤ u.lower ∨ u.upper ≤ seg.lower :=
      fun u hu => hdisj u (mem_segs_left s v r hu)
    have hdr : ∀ u ∈ r.segsM, seg.upper ≤ u.lower ∨ u.upper ≤ seg.lower :=
      fun u hu => hdisj u (mem_segs_right s v l hu)
    cases n with
    | zero => exact absurd hn (by simp)
    | succ m =>
      have hnl : size l < m := by simp only [size] at hn; omega
      have hnr : size r < m := by simp only [size] at hn; omega
      simp only [removeF]
      rw [if_neg (show ¬ seg.isEmpty from fun hc => absurd (hc : seg.lower = seg.upper)
        (ne_of_lt hp))]
      split
      · rename_i inter hi
        obtain ⟨hc1, hc2, hil, hiu⟩ := inter_spec hi
        have hie : inter.isEmpty := by
          show inter.lower = inter.upper
          rw [hil, hiu]
          rcases hdisj s (mem_segs_root s v l r) with hd | hd
          · have hseq : s.lower = seg.upper := le_antisymm hc2 hd
            have hll : seg.lower ≤ s.lower := by rw [hseq]; exact hp.le
            have h2 : seg.upper ≤ s.upper := by rw [← hseq]; exact hwf
            rw [max_eq_right hll, min_eq_left h2]
            exact hseq
          · have hseq : s.upper = seg.lower := le_antisymm hd hc1
            have hll : s.lower ≤ seg.lower := by rw [← hseq]; exact hwf
            have h2 : s.upper ≤ seg.upper := by rw [hseq]; exact hp.le
            rw [max_eq_left hll, min_eq_right h2]
            exact hseq.symm
        rw [if_pos hie]
        by_cases h5 : seg.lower = s.upper
        · rw [if_pos h5, ihr seg ir hp hdr m hnr]
          rfl
        · rw [if_neg h5, ihl seg il hp hdl m hnl]
          rfl
      · rename_i hi
        by_cases h6 : s.upper < seg.lower
        · rw [if_pos h6, ihr seg ir hp hdr m hnr]
          rfl
        · rw [if_neg h6, ihl seg il hp hdl m hnl]
          rfl

end SegMap

namespace SegMap

variable {K V : Type} [LinearOrder K]

/-- Fuel stability: once `removeF` finishes within the fuel, one more
unit of fuel does not change the result. -/
theorem removeF_mono : ∀ (n : Nat) (t : SegMap K V) (seg : Segment K),
    removeF n t seg ≠ .diverge → removeF (n+1) t seg = removeF n t seg := by
  intro n
  induction n with
  | zero => intro t seg h; exact absurd rfl h
  | succ n ih =>
    intro t seg h
    cases t with
    | nil => rfl
    | node s v l r =>
      rw [removeF] at h
      conv_lhs => rw [removeF]
      conv_rhs => rw [removeF]
      by_cases hemp : seg.isEmpty
      · simp only [if_pos hemp] at h ⊢
        by_cases henc : s.encloses seg
        · simp only [if_pos henc] at h ⊢
          by_cases heq : seg.lower = s.lower ∧ seg.upper = s.upper
          · simp only [if_pos heq]
          · simp only [if_neg heq] at h ⊢
            by_cases h2 : seg.lower = s.lower
            · simp only [if_pos h2] at h ⊢
              cases hres : removeF n l seg with
              | diverge => rw [hres] at h; exact absurd rfl h
              | violation =>
                rw [ih l seg (by rw [hres]; exact fun hc => RunResult.noConfusion hc), hres]
              | ok l' =>
                rw [ih l seg (by rw [hres]; exact fun hc => RunResult.noConfusion hc), hres]
            · simp only [if_neg h2] at h ⊢
              by_cases h3 : seg.upper = s.upper
              · simp only [if_pos h3] at h ⊢
                cases hres : removeF n r seg with
                | diverge => rw [hres] at h; exact absurd rfl h
                | violation =>
                  rw [ih r seg (by rw [hres]; exact fun hc => RunResult.noConfusion hc), hres]
                | ok r' =>
                  rw [ih r seg (by rw [hres]; exact fun hc => RunResult.noConfusion hc), hres]
              · simp only [if_neg h3]
        · simp only [if_neg henc] at h ⊢
          by_cases h4 : seg.upper < s.lower
          · simp only [if_pos h4] at h ⊢
            cases hres : removeF n l seg with
            | diverge => rw [hres] at h; exact absurd rfl h
            | violation =>
              rw [ih l seg (by rw [hres]; exact fun hc => RunResult.noConfusion hc), hres]
            | ok l' =>
              rw [ih l seg (by rw [hres]; exact fun hc => RunResult.noConfusion hc), hres]
          · simp only [if_neg h4] at h ⊢
            cases hres : removeF n r seg with
            | diverge => rw [hres] at h; exact absurd rfl h
            | violation =>
              rw [ih r seg (by rw [hres]; exact fun hc => RunResult.noConfusion hc), hres]
            | ok r' =>
              rw [ih r seg (by rw [hres]; exact fun hc => RunResult.noConfusion hc), hres]
      · simp only [if_neg hemp] at h ⊢
        cases hi : seg.intersection s with
        | some inter =>
          rw [hi] at h
          by_cases hie : inter.isEmpty
          · simp only [if_pos hie] at h ⊢
            by_cases h5 : seg.lower = s.upper
            · simp only [if_pos h5] at h ⊢
              cases hres : removeF n r seg with
              | diverge => rw [hres] at h; exact absurd rfl h
              | violation =>
                rw [ih r seg (by rw [hres]; exact fun hc => RunResult.noConfusion hc), hres]
              | ok r' =>
                rw [ih r seg (by rw [hres]; exact fun hc => RunResult.noConfusion hc), hres]
            · simp only [if_neg h5] at h ⊢
              cases hres : removeF n l seg with
              | diverge => rw [hres] at h; exact absurd rfl h
              | violation =>
                rw [ih l seg (by rw [hres]; exact fun hc => RunResult.noConfusion hc), hres]
              | ok l' =>
                rw [ih l seg (by rw [hres]; exact fun hc => RunResult.noConfusion hc), hres]
          · simp only [if_neg hie] at h ⊢
            by_cases hp1 : seg.lower < inter.lower
            · simp only [if_pos hp1] at h ⊢
              cases hres : removeF n (excise l r) ⟨seg.lower, inter.lower⟩ with
              | diverge => rw [hres] at h; exact absurd rfl h
              | violation =>
                rw [ih (excise l r) ⟨seg.lower, inter.lower⟩
                  (by rw [hres]; exact fun hc => RunResult.noConfusion hc), hres]
              | ok res1 =>
                rw [ih (excise l r) ⟨seg.lower, inter.lower⟩
                  (by rw [hres]; exact fun hc => RunResult.noConfusion hc), hres]
                rw [hres] at h
                by_cases hq1 : inter.upper < seg.upper
                · simp only [if_pos hq1] at h ⊢
                  exact ih res1 ⟨inter.upper, seg.upper⟩ h
                · simp only [if_neg hq1]
            · simp only [if_neg hp1] at h ⊢
              by_cases hp2 : s.lower < inter.lower
              · simp only [if_pos hp2] at h ⊢
                cases hres : insertT (excise l r) ⟨s.lower, inter.lower⟩ v with
                | none => rfl
                | some res1 =>
                  rw [hres] at h
                  simp only [insRes] at h ⊢
                  by_cases hq1 : inter.upper < seg.upper
                  · simp only [if_pos hq1] at h ⊢
                    exact ih res1 ⟨inter.upper, seg.upper⟩ h
                  · simp only [if_neg hq1]
              · simp only [if_neg hp2] at h ⊢
                by_cases hq1 : inter.upper < seg.upper
                · simp only [if_pos hq1] at h ⊢
                  exact ih (excise l r) ⟨inter.upper, seg.upper⟩ h
                · simp only [if_neg hq1]
        | none =>
          rw [hi] at h
          by_cases h6 : s.upper < seg.lower
          · simp only [if_pos h6] at h ⊢
            cases hres : removeF n r seg with
            | diverge => rw [hres] at h; exact absurd rfl h
            | violation =>
              rw [ih r seg (by rw [hres]; exact fun hc => RunResult.noConfusion hc), hres]
            | ok r' =>
              rw [ih r seg (by rw [hres]; exact fun hc => RunResult.noConfusion hc), hres]
          · simp only [if_neg h6] at h ⊢
            cases hres : removeF n l seg with
            | diverge => rw [hres] at h; exact absurd rfl h
            | violation =>
              rw [ih l seg (by rw [hres]; exact fun hc => RunResult.noConfusion hc), hres]
            | ok l' =>
              rw [ih l seg (by rw [hres]; exact fun hc => RunResult.noConfusion hc), hres]

end SegMap

namespace SegMap

variable {K V : Type} [LinearOrder K]

/-- Fuel stability for `update_entry`. -/
theorem updateEntryF_mono : ∀ (n : Nat) (t : SegMap K V) (seg : Segment K)
    (f : Segment K → Option V → Option V),
    updateEntryF n t seg f ≠ .diverge →
    updateEntryF (n+1) t seg f = updateEntryF n t seg f := by
  intro n
  induction n with
  | zero => intro t seg f h; exact absurd rfl h
  | succ n ih =>
    intro t seg f h
    cases t with
    | nil => rfl
    | node s v l r =>
      rw [updateEntryF] at h
      conv_lhs => rw [updateEntryF]
      conv_rhs => rw [updateEntryF]
      by_cases hemp : seg.isEmpty
      · simp only [if_pos hemp] at h ⊢
        by_cases henc : s.encloses seg
        · simp only [if_pos henc] at h ⊢
          by_cases heq : seg.lower = s.lower ∧ seg.upper = s.upper
          · simp only [if_pos heq]
          · simp only [if_neg heq] at h ⊢
            by_cases h2 : seg.lower = s.lower
            · simp only [if_pos h2] at h ⊢
              cases hres : updateEntryF n l seg f with
              | diverge => rw [hres] at h; exact absurd rfl h
              | violation =>
                rw [ih l seg f (by rw [hres]; exact fun hc => RunResult.noConfusion hc), hres]
              | ok l' =>
                rw [ih l seg f (by rw [hres]; exact fun hc => RunResult.noConfusion hc), hres]
            · simp only [if_neg h2] at h ⊢
              by_cases h3 : seg.upper = s.upper
              · simp only [if_pos h3] at h ⊢
                cases hres : updateEntryF n r seg f with
                | diverge => rw [hres] at h; exact absurd rfl h
                | violation =>
                  rw [ih r seg f (by rw [hres]; exact fun hc => RunResult.noConfusion hc), hres]
                | ok r' =>
                  rw [ih r seg f (by rw [hres]; exact fun hc => RunResult.noConfusion hc), hres]
              · simp only [if_neg h3]
        · simp only [if_neg henc] at h ⊢
          by_cases h4 : seg.upper < s.lower
          · simp only [if_pos h4] at h ⊢
            cases hres : updateEntryF n l seg f with
            | diverge => rw [hres] at h; exact absurd rfl h
            | violation =>
              rw [ih l seg f (by rw [hres]; exact fun hc => RunResult.noConfusion hc), hres]
            | ok l' =>
              rw [ih l seg f (by rw [hres]; exact fun hc => RunResult.noConfusion hc), hres]
          · simp only [if_neg h4] at h ⊢
            cases hres : updateEntryF n r seg f with
            | diverge => rw [hres] at h; exact absurd rfl h
            | violation =>
              rw [ih r seg f (by rw [hres]; exact fun hc => RunResult.noConfusion hc), hres]
            | ok r' =>
              rw [ih r seg f (by rw [hres]; exact fun hc => RunResult.noConfusion hc), hres]
      · simp only [if_neg hemp] at h ⊢
        cases hi : seg.intersection s with
        | some inter =>
          rw [hi] at h
          by_cases hie : inter.isEmpty
          · simp only [if_pos hie] at h ⊢
            by_cases h5 : seg.lower = s.upper
            · simp only [if_pos h5] at h ⊢
              cases hres : updateEntryF n r seg f with
              | diverge => rw [hres] at h; exact absurd rfl h
              | violation =>
                rw [ih r seg f (by rw [hres]; exact fun hc => RunResult.noConfusion hc), hres]
              | ok r' =>
                rw [ih r seg f (by rw [hres]; exact fun hc => RunResult.noConfusion hc), hres]
            · simp only [if_neg h5] at h ⊢
              cases hres : updateEntryF n l seg f with
              | diverge => rw [hres] at h; exact absurd rfl h
              | violation =>
                rw [ih l seg f (by rw [hres]; exact fun hc => RunResult.noConfusion hc), hres]
              | ok l' =>
                rw [ih l seg f (by rw [hres]; exact fun hc => RunResult.noConfusion hc), hres]
          · simp only [if_neg hie] at h ⊢
            cases hres0 : (match f inter (some v) with
              | some w => insertT (excise l r) inter w
              | none => some (excise l r)) with
            | none => rfl
            | some res0 =>
              rw [hres0] at h
              simp only [] at h ⊢
              by_cases hp1 : seg.lower < inter.lower
              · simp only [if_pos hp1] at h ⊢
                cases hres : updateEntryF n res0 ⟨seg.lower, inter.lower⟩ f with
                | diverge => rw [hres] at h; exact absurd rfl h
                | violation =>
                  rw [ih res0 ⟨seg.lower, inter.lower⟩ f
                    (by rw [hres]; exact fun hc => RunResult.noConfusion hc), hres]
                | ok res1 =>
                  rw [ih res0 ⟨seg.lower, inter.lower⟩ f
                    (by rw [hres]; exact fun hc => RunResult.noConfusion hc), hres]
                  rw [hres] at h
                  by_cases hq1 : inter.upper < seg.upper
                  · simp only [if_pos hq1] at h ⊢
                    exact ih res1 ⟨inter.upper, seg.upper⟩ f h
                  · simp only [if_neg hq1]
              · simp only [if_neg hp1] at h ⊢
                by_cases hp2 : s.lower < inter.lower
                · simp only [if_pos hp2] at h ⊢
                  cases hres : insertT res0 ⟨s.lower, inter.lower⟩ v with
                  | none => rfl
                  | some res1 =>
                    rw [hres] at h
                    simp only [insRes] at h ⊢
                    by_cases hq1 : inter.upper < seg.upper
                    · simp only [if_pos hq1] at h ⊢
                      exact ih res1 ⟨inter.upper, seg.upper⟩ f h
                    · simp only [if_neg hq1]
                · simp only [if_neg hp2] at h ⊢
                  by_cases hq1 : inter.upper < seg.upper
                  · simp only [if_pos hq1] at h ⊢
                    exact ih res0 ⟨inter.upper, seg.upper⟩ f h
                  · simp only [if_neg hq1]
        | none =>
          rw [hi] at h
          by_cases h6 : s.upper < seg.lower
          · simp only [if_pos h6] at h ⊢
            cases hres : updateEntryF n r seg f with
            | diverge => rw [hres] at h; exact absurd rfl h
            | violation =>
              rw [ih r seg f (by rw [hres]; exact fun hc => RunResult.noConfusion hc), hres]
            | ok r' =>
              rw [ih r seg f (by rw [hres]; exact fun hc => RunResult.noConfusion hc), hres]
          · simp only [if_neg h6] at h ⊢
            cases hres : updateEntryF n l seg f with
            | diverge => rw [hres] at h; exact absurd rfl h
            | violation =>
              rw [ih l seg f (by rw [hres]; exact fun hc => RunResult.noConfusion hc), hres]
            | ok l' =>
              rw [ih l seg f (by rw [hres]; exact fun hc => RunResult.noConfusion hc), hres]

end SegMap

namespace SegMap

variable {K V : Type} [LinearOrder K]

theorem removeF_le_mono {n : Nat} {t : SegMap K V} {seg : Segment K}
    (h : removeF n t seg ≠ .diverge) :
    ∀ m, n ≤ m → removeF m t seg = removeF n t seg := by
  intro m hm
  induction m with
  | zero =>
    have h0 : n = 0 := Nat.le_zero.mp hm
    subst h0; rfl
  | succ m ihm =>
    by_cases hnm : n ≤ m
    · have he := ihm hnm
      rw [removeF_mono m t seg (by rw [he]; exact h), he]
    · have heq : n = m + 1 := by omega
      subst heq; rfl

theorem updateEntryF_le_mono {n : Nat} {t : SegMap K V} {seg : Segment K}
    {f : Segment K → Option V → Option V}
    (h : updateEntryF n t seg f ≠ .diverge) :
    ∀ m, n ≤ m → updateEntryF m t seg f = updateEntryF n t seg f := by
  intro m hm
  induction m with
  | zero =>
    have h0 : n = 0 := Nat.le_zero.mp hm
    subst h0; rfl
  | succ m ihm =>
    by_cases hnm : n ≤ m
    · have he := ihm hnm
      rw [updateEntryF_mono m t seg f (by rw [he]; exact h), he]
    · have heq : n = m + 1 := by omega
      subst heq; rfl

end SegMap

namespace SegMap

variable {K V : Type} [LinearOrder K]

/-- Termination of `remove` over integer keys on invariant-satisfying
trees, by lexicographic induction on (target width, tree size). -/
theorem removeF_total_aux : ∀ (w c : Nat) (t : SegMap Int V) (seg : Segment Int),
    segWidth seg = w → size t = c → Inv t → seg.lower ≤ seg.upper →
    ∃ n, removeF n t seg ≠ .diverge := by
  intro w
  induction w using Nat.strong_induction_on with
  | _ w ihw =>
  intro c
  induction c using Nat.strong_induction_on with
  | _ c ihc =>
  intro t seg hw hc hinv hwfs
  subst hw
  subst hc
  cases t with
  | nil => exact ⟨1, fun hcon => RunResult.noConfusion hcon⟩
  | node s v l r =>
    obtain ⟨hwf, hL, hR, il, ir⟩ := inv_node_iff.mp hinv
    have hsz : ∀ t' : SegMap Int V, t' = l ∨ t' = r →
        size t' < size (SegMap.node s v l r) := by
      rintro t' (rfl | rfl) <;> simp only [size] <;> omega
    by_cases hemp : seg.isEmpty
    · by_cases henc : s.encloses seg
      · by_cases heq : seg.lower = s.lower ∧ seg.upper = s.upper
        · refine ⟨1, ?_⟩
          simp only [removeF]
          rw [if_pos hemp, if_pos henc, if_pos heq]
          exact fun hc => RunResult.noConfusion hc
        · by_cases h2 : seg.lower = s.lower
          · obtain ⟨n0, h0⟩ := ihc (size l) (hsz l (Or.inl rfl)) l seg rfl rfl il hwfs
            refine ⟨n0 + 1, ?_⟩
            simp only [removeF]
            rw [if_pos hemp, if_pos henc, if_neg heq, if_pos h2]
            cases hres : removeF n0 l seg with
            | diverge => exact absurd hres h0
            | violation => exact fun hc => RunResult.noConfusion hc
            | ok l' => exact fun hc => RunResult.noConfusion hc
          · by_cases h3 : seg.upper = s.upper
            · obtain ⟨n0, h0⟩ := ihc (size r) (hsz r (Or.inr rfl)) r seg rfl rfl ir hwfs
              refine ⟨n0 + 1, ?_⟩
              simp only [removeF]
              rw [if_pos hemp, if_pos henc, if_neg heq, if_neg h2, if_pos h3]
              cases hres : removeF n0 r seg with
              | diverge => exact absurd hres h0
              | violation => exact fun hc => RunResult.noConfusion hc
              | ok r' => exact fun hc => RunResult.noConfusion hc
            · refine ⟨1, ?_⟩
              simp only [removeF]
              rw [if_pos hemp, if_pos henc, if_neg heq, if_neg h2, if_neg h3]
              cases h1 : insertT (excise l r) ⟨s.lower, seg.lower⟩ v with
              | none => exact fun hc => RunResult.noConfusion hc
              | some res1 =>
                simp only []
                cases h2' : insertT res1 ⟨seg.upper, s.upper⟩ v with
                | none => simp [insRes]
                | some t2 => simp [insRes]
      · by_cases h4 : seg.upper < s.lower
        · obtain ⟨n0, h0⟩ := ihc (size l) (hsz l (Or.inl rfl)) l seg rfl rfl il hwfs
          refine ⟨n0 + 1, ?_⟩
          simp only [removeF]
          rw [if_pos hemp, if_neg henc, if_pos h4]
          cases hres : removeF n0 l seg with
          | diverge => exact absurd hres h0
          | violation => exact fun hc => RunResult.noConfusion hc
          | ok l' => exact fun hc => RunResult.noConfusion hc
        · obtain ⟨n0, h0⟩ := ihc (size r) (hsz r (Or.inr rfl)) r seg rfl rfl ir hwfs
          refine ⟨n0 + 1, ?_⟩
          simp only [removeF]
          rw [if_pos hemp, if_neg henc, if_neg h4]
          cases hres : removeF n0 r seg with
          | diverge => exact absurd hres h0
          | violation => exact fun hc => RunResult.noConfusion hc
          | ok r' => exact fun hc => RunResult.noConfusion hc
    · cases hi : seg.intersection s with
      | some inter =>
        obtain ⟨hc1, hc2, hil, hiu⟩ := inter_spec hi
        by_cases hie : inter.isEmpty
        · by_cases h5 : seg.lower = s.upper
          · obtain ⟨n0, h0⟩ := ihc (size r) (hsz r (Or.inr rfl)) r seg rfl rfl ir hwfs
            refine ⟨n0 + 1, ?_⟩
            simp only [removeF]
            simp only [if_neg hemp, hi, if_pos hie, if_pos h5]
            cases hres : removeF n0 r seg with
            | diverge => exact absurd hres h0
            | violation => exact fun hc => RunResult.noConfusion hc
            | ok r' => exact fun hc => RunResult.noConfusion hc
          · obtain ⟨n0, h0⟩ := ihc (size l) (hsz l (Or.inl rfl)) l seg rfl rfl il hwfs
            refine ⟨n0 + 1, ?_⟩
            simp only [removeF]
            simp only [if_neg hemp, hi, if_pos hie, if_neg h5]
            cases hres : removeF n0 l seg with
            | diverge => exact absurd hres h0
            | violation => exact fun hc => RunResult.noConfusion hc
            | ok l' => exact fun hc => RunResult.noConfusion hc
        · have hsl : s.lower ≤ inter.lower := hil ▸ le_max_right _ _
          have hsegl : seg.lower ≤ inter.lower := hil ▸ le_max_left _ _
          have hius : inter.upper ≤ s.upper := hiu ▸ min_le_right _ _
          have hiuseg : inter.upper ≤ seg.upper := hiu ▸ min_le_left _ _
          have hwfint : inter.lower ≤ inter.upper := by
            rw [hil, hiu]
            exact max_le (le_min hwfs hc1) (le_min hc2 hwf)
          have hproper : inter.lower < inter.upper :=
            lt_of_le_of_ne hwfint (fun hcc => hie hcc)
          have hw2 : inter.upper < seg.upper →
              segWidth ⟨inter.upper, seg.upper⟩ < segWidth seg := by
            intro hq1
            simp only [segWidth]
            omega
          by_cases hp1 : seg.lower < inter.lower
          · have hw1 : segWidth ⟨seg.lower, inter.lower⟩ < segWidth seg := by
              simp only [segWidth]
              omega
            obtain ⟨n1, h1⟩ := ihw (segWidth ⟨seg.lower, inter.lower⟩) hw1
              (size (excise l r)) (excise l r) ⟨seg.lower, inter.lower⟩ rfl rfl
              (excise_inv hinv) hp1.le
            cases hres1 : removeF n1 (excise l r) ⟨seg.lower, inter.lower⟩ with
            | diverge => exact absurd hres1 h1
            | violation =>
              refine ⟨n1 + 1, ?_⟩
              simp only [removeF]
              simp only [if_neg hemp, hi, if_neg hie, if_pos hp1, hres1]
              exact fun hc => RunResult.noConfusion hc
            | ok res1 =>
              have hlow : ¬ seg.lower < inter.lower → inter.lower = seg.lower :=
                fun hcc => absurd hp1 hcc
              obtain ⟨hnv, hok⟩ := rem_phase1 (n := n1) (v := v) (g := seg) hinv
                (fun t' seg' ha hb => remove_good n1 t' seg' ha hb) hsl hsegl hlow hproper hius
              have hchain : (if seg.lower < inter.lower then
                  removeF n1 (excise l r) ⟨seg.lower, inter.lower⟩
                else if s.lower < inter.lower then
                  insRes (insertT (excise l r) ⟨s.lower, inter.lower⟩ v)
                else .ok (excise l r)) = .ok res1 := by
                rw [if_pos hp1]; exact hres1
              obtain ⟨hinv1, hcov1, hnp1, hside⟩ := hok res1 hchain
              by_cases hq1 : inter.upper < seg.upper
              · obtain ⟨n2, h2⟩ := ihw (segWidth ⟨inter.upper, seg.upper⟩) (hw2 hq1)
                  (size res1) res1 ⟨inter.upper, seg.upper⟩ rfl rfl hinv1 hq1.le
                refine ⟨max n1 n2 + 1, ?_⟩
                simp only [removeF]
                simp only [if_neg hemp, hi, if_neg hie, if_pos hp1]
                rw [removeF_le_mono (by rw [hres1]; exact fun hc => RunResult.noConfusion hc)
                  (max n1 n2) (le_max_left _ _), hres1]
                simp only [if_pos hq1]
                rw [removeF_le_mono h2 (max n1 n2) (le_max_right _ _)]
                exact h2
              · refine ⟨n1 + 1, ?_⟩
                simp only [removeF]
                simp only [if_neg hemp, hi, if_neg hie, if_pos hp1, hres1]
                simp only [if_neg hq1]
                by_cases hq2 : inter.upper < s.upper
                · simp only [if_pos hq2]
                  cases hins : insertT res1 ⟨inter.upper, s.upper⟩ v with
                  | none => simp [insRes]
                  | some t2 => simp [insRes]
                · simp only [if_neg hq2]
                  exact fun hc => RunResult.noConfusion hc
          · by_cases hp2 : s.lower < inter.lower
            · cases hins : insertT (excise l r) ⟨s.lower, inter.lower⟩ v with
              | none =>
                refine ⟨1, ?_⟩
                simp only [removeF]
                simp only [if_neg hemp, hi, if_neg hie, if_neg hp1, if_pos hp2, hins]
                simp [insRes]
              | some res1 =>
                have hlow : ¬ seg.lower < inter.lower → inter.lower = seg.lower :=
                  fun _ => le_antisymm (not_lt.mp hp1) hsegl
                obtain ⟨hnv, hok⟩ := rem_phase1 (n := 0) (v := v) (g := seg) hinv
                  (fun t' seg' ha hb => remove_good 0 t' seg' ha hb) hsl hsegl hlow hproper hius
                have hchain : (if seg.lower < inter.lower then
                    removeF 0 (excise l r) ⟨seg.lower, inter.lower⟩
                  else if s.lower < inter.lower then
                    insRes (insertT (excise l r) ⟨s.lower, inter.lower⟩ v)
                  else .ok (excise l r)) = .ok res1 := by
                  rw [if_neg hp1, if_pos hp2, hins]; rfl
                obtain ⟨hinv1, hcov1, hnp1, hside⟩ := hok res1 hchain
                by_cases hq1 : inter.upper < seg.upper
                · obtain ⟨n2, h2⟩ := ihw (segWidth ⟨inter.upper, seg.upper⟩) (hw2 hq1)
                    (size res1) res1 ⟨inter.upper, seg.upper⟩ rfl rfl hinv1 hq1.le
                  refine ⟨n2 + 1, ?_⟩
                  simp only [removeF]
                  simp only [if_neg hemp, hi, if_neg hie, if_neg hp1, if_pos hp2, hins]
                  simp only [insRes, if_pos hq1]
                  exact h2
                · refine ⟨1, ?_⟩
                  simp only [removeF]
                  simp only [if_neg hemp, hi, if_neg hie, if_neg hp1, if_pos hp2, hins]
                  simp only [insRes, if_neg hq1]
                  by_cases hq2 : inter.upper < s.upper
                  · simp only [if_pos hq2]
                    cases hins2 : insertT res1 ⟨inter.upper, s.upper⟩ v with
                    | none => simp [insRes]
                    | some t2 => simp [insRes]
                  · simp only [if_neg hq2]
                    exact fun hc => RunResult.noConfusion hc
            · by_cases hq1 : inter.upper < seg.upper
              · obtain ⟨n2, h2⟩ := ihw (segWidth ⟨inter.upper, seg.upper⟩) (hw2 hq1)
                  (size (excise l r)) (excise l r) ⟨inter.upper, seg.upper⟩ rfl rfl
                  (excise_inv hinv) hq1.le
                refine ⟨n2 + 1, ?_⟩
                simp only [removeF]
                simp only [if_neg hemp, hi, if_neg hie, if_neg hp1, if_neg hp2]
                simp only [if_pos hq1]
                exact h2
              · refine ⟨1, ?_⟩
                simp only [removeF]
                simp only [if_neg hemp, hi, if_neg hie, if_neg hp1, if_neg hp2]
                simp only [if_neg hq1]
                by_cases hq2 : inter.upper < s.upper
                · simp only [if_pos hq2]
                  cases hins2 : insertT (excise l r) ⟨inter.upper, s.upper⟩ v with
                  | none => simp [insRes]
                  | some t2 => simp [insRes]
                · simp only [if_neg hq2]
                  exact fun hc => RunResult.noConfusion hc
      | none =>
        by_cases h6 : s.upper < seg.lower
        · obtain ⟨n0, h0⟩ := ihc (size r) (hsz r (Or.inr rfl)) r seg rfl rfl ir hwfs
          refine ⟨n0 + 1, ?_⟩
          simp only [removeF]
          simp only [if_neg hemp, hi, if_pos h6]
          cases hres : removeF n0 r seg with
          | diverge => exact absurd hres h0
          | violation => exact fun hc => RunResult.noConfusion hc
          | ok r' => exact fun hc => RunResult.noConfusion hc
        · obtain ⟨n0, h0⟩ := ihc (size l) (hsz l (Or.inl rfl)) l seg rfl rfl il hwfs
          refine ⟨n0 + 1, ?_⟩
          simp only [removeF]
          simp only [if_neg hemp, hi, if_neg h6]
          cases hres : removeF n0 l seg with
          | diverge => exact absurd hres h0
          | violation => exact fun hc => RunResult.noConfusion hc
          | ok l' => exact fun hc => RunResult.noConfusion hc

end SegMap

namespace SegMap

variable {K V : Type} [LinearOrder K]

/-- Termination of `update_entry` over integer keys on
invariant-satisfying trees without zero-width stored segments. -/
theorem updateEntryF_total_aux :
    ∀ (w c : Nat) (t : SegMap Int V) (seg : Segment Int)
      (f : Segment Int → Option V → Option V),
    segWidth seg = w → size t = c → Inv t → AllProper t → seg.lower ≤ seg.upper →
    ∃ n, updateEntryF n t seg f ≠ .diverge := by
  intro w
  induction w using Nat.strong_induction_on with
  | _ w ihw =>
  intro c
  induction c using Nat.strong_induction_on with
  | _ c ihc =>
  intro t seg f hw hc hinv hap hwfs
  subst hw
  subst hc
  cases t with
  | nil =>
    refine ⟨1, ?_⟩
    simp only [updateEntryF]
    cases hf : f seg none with
    | some w => exact fun hc => RunResult.noConfusion hc
    | none => exact fun hc => RunResult.noConfusion hc
  | node s v l r =>
    obtain ⟨hwf, hL, hR, il, ir⟩ := inv_node_iff.mp hinv
    have hapl : AllProper l := fun x hx => hap x (mem_segs_left s v r hx)
    have hapr : AllProper r := fun x hx => hap x (mem_segs_right s v l hx)
    have hsz : ∀ t' : SegMap Int V, t' = l ∨ t' = r →
        size t' < size (SegMap.node s v l r) := by
      rintro t' (rfl | rfl) <;> simp only [size] <;> omega
    by_cases hemp : seg.isEmpty
    · by_cases henc : s.encloses seg
      · by_cases heq : seg.lower = s.lower ∧ seg.upper = s.upper
        · refine ⟨1, ?_⟩
          simp only [updateEntryF]
          rw [if_pos hemp, if_pos henc, if_pos heq]
          cases hf : f seg (some v) with
          | none => exact fun hc => RunResult.noConfusion hc
          | some w =>
            simp only []
            cases h1 : insertT (excise l r) seg w with
            | none => simp [insRes]
            | some t1 => simp [insRes]
        · by_cases h2 : seg.lower = s.lower
          · obtain ⟨n0, h0⟩ := ihc (size l) (hsz l (Or.inl rfl)) l seg f rfl rfl il hapl hwfs
            refine ⟨n0 + 1, ?_⟩
            simp only [updateEntryF]
            rw [if_pos hemp, if_pos henc, if_neg heq, if_pos h2]
            cases hres : updateEntryF n0 l seg f with
            | diverge => exact absurd hres h0
            | violation => exact fun hc => RunResult.noConfusion hc
            | ok l' => exact fun hc => RunResult.noConfusion hc
          · by_cases h3 : seg.upper = s.upper
            · obtain ⟨n0, h0⟩ := ihc (size r) (hsz r (Or.inr rfl)) r seg f rfl rfl ir hapr hwfs
              refine ⟨n0 + 1, ?_⟩
              simp only [updateEntryF]
              rw [if_pos hemp, if_pos henc, if_neg heq, if_neg h2, if_pos h3]
              cases hres : updateEntryF n0 r seg f with
              | diverge => exact absurd hres h0
              | violation => exact fun hc => RunResult.noConfusion hc
              | ok r' => exact fun hc => RunResult.noConfusion hc
            · refine ⟨1, ?_⟩
              simp only [updateEntryF]
              rw [if_pos hemp, if_pos henc, if_neg heq, if_neg h2, if_neg h3]
              cases hf : f seg (some v) with
              | none =>
                simp only []
                cases h1 : insertT (excise l r) ⟨s.lower, seg.lower⟩ v with
                | none => exact fun hc => RunResult.noConfusion hc
                | some res1 =>
                  simp only []
                  cases h2' : insertT res1 ⟨seg.upper, s.upper⟩ v with
                  | none => simp [insRes]
                  | some t2 => simp [insRes]
              | some w =>
                simp only []
                cases h0 : insertT (excise l r) seg w with
                | none => exact fun hc => RunResult.noConfusion hc
                | some res0 =>
                  simp only []
                  cases h1 : insertT res0 ⟨s.lower, seg.lower⟩ v with
                  | none => exact fun hc => RunResult.noConfusion hc
                  | some res1 =>
                    simp only []
                    cases h2' : insertT res1 ⟨seg.upper, s.upper⟩ v with
                    | none => simp [insRes]
                    | some t2 => simp [insRes]
      · by_cases h4 : seg.upper < s.lower
        · obtain ⟨n0, h0⟩ := ihc (size l) (hsz l (Or.inl rfl)) l seg f rfl rfl il hapl hwfs
          refine ⟨n0 + 1, ?_⟩
          simp only [updateEntryF]
          rw [if_pos hemp, if_neg henc, if_pos h4]
          cases hres : updateEntryF n0 l seg f with
          | diverge => exact absurd hres h0
          | violation => exact fun hc => RunResult.noConfusion hc
          | ok l' => exact fun hc => RunResult.noConfusion hc
        · obtain ⟨n0, h0⟩ := ihc (size r) (hsz r (Or.inr rfl)) r seg f rfl rfl ir hapr hwfs
          refine ⟨n0 + 1, ?_⟩
          simp only [updateEntryF]
          rw [if_pos hemp, if_neg henc, if_neg h4]
          cases hres : updateEntryF n0 r seg f with
          | diverge => exact absurd hres h0
          | violation => exact fun hc => RunResult.noConfusion hc
          | ok r' => exact fun hc => RunResult.noConfusion hc
    · cases hi : seg.intersection s with
      | some inter =>
        obtain ⟨hc1, hc2, hil, hiu⟩ := inter_spec hi
        by_cases hie : inter.isEmpty
        · by_cases h5 : seg.lower = s.upper
          · obtain ⟨n0, h0⟩ := ihc (size r) (hsz r (Or.inr rfl)) r seg f rfl rfl ir hapr hwfs
            refine ⟨n0 + 1, ?_⟩
            simp only [updateEntryF]
            simp only [if_neg hemp, hi, if_pos hie, if_pos h5]
            cases hres : updateEntryF n0 r seg f with
            | diverge => exact absurd hres h0
            | violation => exact fun hc => RunResult.noConfusion hc
            | ok r' => exact fun hc => RunResult.noConfusion hc
          · obtain ⟨n0, h0⟩ := ihc (size l) (hsz l (Or.inl rfl)) l seg f rfl rfl il hapl hwfs
            refine ⟨n0 + 1, ?_⟩
            simp only [updateEntryF]
            simp only [if_neg hemp, hi, if_pos hie, if_neg h5]
            cases hres : updateEntryF n0 l seg f with
            | diverge => exact absurd hres h0
            | violation => exact fun hc => RunResult.noConfusion hc
            | ok l' => exact fun hc => RunResult.noConfusion hc
        · have hsl : s.lower ≤ inter.lower := hil ▸ le_max_right _ _
          have hsegl : seg.lower ≤ inter.lower := hil ▸ le_max_left _ _
          have hius : inter.upper ≤ s.upper := hiu ▸ min_le_right _ _
          have hiuseg : inter.upper ≤ seg.upper := hiu ▸ min_le_left _ _
          have hwfint : inter.lower ≤ inter.upper := by
            rw [hil, hiu]
            exact max_le (le_min hwfs hc1) (le_min hc2 hwf)
          have hproper : inter.lower < inter.upper :=
            lt_of_le_of_ne hwfint (fun hcc => hie hcc)
          have hw2 : inter.upper < seg.upper →
              segWidth ⟨inter.upper, seg.upper⟩ < segWidth seg := by
            intro hq1
            simp only [segWidth]
            omega
          obtain ⟨hnn, hfact⟩ := upd_phase0 (f := f) hinv hap hproper hsl hius
          cases hres0 : (match f inter (some v) with
            | some w => insertT (excise l r) inter w
            | none => some (excise l r)) with
          | none => exact absurd hres0 hnn
          | some res0 =>
            obtain ⟨hinv0, hap0, hcov0, hside0⟩ := hfact res0 hres0
            by_cases hp1 : seg.lower < inter.lower
            · have hw1 : segWidth ⟨seg.lower, inter.lower⟩ < segWidth seg := by
                simp only [segWidth]
                omega
              obtain ⟨n1, h1⟩ := ihw (segWidth ⟨seg.lower, inter.lower⟩) hw1
                (size res0) res0 ⟨seg.lower, inter.lower⟩ f rfl rfl hinv0 hap0 hp1.le
              cases hres1 : updateEntryF n1 res0 ⟨seg.lower, inter.lower⟩ f with
              | diverge => exact absurd hres1 h1
              | violation =>
                refine ⟨n1 + 1, ?_⟩
                simp only [updateEntryF]
                simp only [if_neg hemp, hi, if_neg hie, hres0, if_pos hp1, hres1]
                exact fun hc => RunResult.noConfusion hc
              | ok res1 =>
                obtain ⟨hnv, hok⟩ := upd_phase1 (n := n1) hap
                  (fun t' seg' ha hb hcx => update_good n1 t' seg' f ha hb hcx)
                  hinv0 hap0 hcov0 hside0 hsl hsegl hproper hius hiuseg
                have hchain : (if seg.lower < inter.lower then
                    updateEntryF n1 res0 ⟨seg.lower, inter.lower⟩ f
                  else if s.lower < inter.lower then
                    insRes (insertT res0 ⟨s.lower, inter.lower⟩ v)
                  else .ok res0) = .ok res1 := by
                  rw [if_pos hp1]; exact hres1
                obtain ⟨hinv1, hap1, hcov1, hside⟩ := hok res1 hchain
                by_cases hq1 : inter.upper < seg.upper
                · obtain ⟨n2, h2⟩ := ihw (segWidth ⟨inter.upper, seg.upper⟩) (hw2 hq1)
                    (size res1) res1 ⟨inter.upper, seg.upper⟩ f rfl rfl hinv1 hap1 hq1.le
                  refine ⟨max n1 n2 + 1, ?_⟩
                  simp only [updateEntryF]
                  simp only [if_neg hemp, hi, if_neg hie, hres0, if_pos hp1]
                  rw [updateEntryF_le_mono
                    (by rw [hres1]; exact fun hc => RunResult.noConfusion hc)
                    (max n1 n2) (le_max_left _ _), hres1]
                  simp only [if_pos hq1]
                  rw [updateEntryF_le_mono h2 (max n1 n2) (le_max_right _ _)]
                  exact h2
                · refine ⟨n1 + 1, ?_⟩
                  simp only [updateEntryF]
                  simp only [if_neg hemp, hi, if_neg hie, hres0, if_pos hp1, hres1]
                  simp only [if_neg hq1]
                  by_cases hq2 : inter.upper < s.upper
                  · simp only [if_pos hq2]
                    cases hins : insertT res1 ⟨inter.upper, s.upper⟩ v with
                    | none => simp [insRes]
                    | some t2 => simp [insRes]
                  · simp only [if_neg hq2]
                    exact fun hc => RunResult.noConfusion hc
            · by_cases hp2 : s.lower < inter.lower
              · cases hins : insertT res0 ⟨s.lower, inter.lower⟩ v with
                | none =>
                  refine ⟨1, ?_⟩
                  simp only [updateEntryF]
                  simp only [if_neg hemp, hi, if_neg hie, hres0, if_neg hp1, if_pos hp2, hins]
                  simp [insRes]
                | some res1 =>
                  obtain ⟨hnv, hok⟩ := upd_phase1 (n := 0) hap
                    (fun t' seg' ha hb hcx => update_good 0 t' seg' f ha hb hcx)
                    hinv0 hap0 hcov0 hside0 hsl hsegl hproper hius hiuseg
                  have hchain : (if seg.lower < inter.lower then
                      updateEntryF 0 res0 ⟨seg.lower, inter.lower⟩ f
                    else if s.lower < inter.lower then
                      insRes (insertT res0 ⟨s.lower, inter.lower⟩ v)
                    else .ok res0) = .ok res1 := by
                    rw [if_neg hp1, if_pos hp2, hins]; rfl
                  obtain ⟨hinv1, hap1, hcov1, hside⟩ := hok res1 hchain
                  by_cases hq1 : inter.upper < seg.upper
                  · obtain ⟨n2, h2⟩ := ihw (segWidth ⟨inter.upper, seg.upper⟩) (hw2 hq1)
                      (size res1) res1 ⟨inter.upper, seg.upper⟩ f rfl rfl hinv1 hap1 hq1.le
                    refine ⟨n2 + 1, ?_⟩
                    simp only [updateEntryF]
                    simp only [if_neg hemp, hi, if_neg hie, hres0, if_neg hp1, if_pos hp2, hins]
                    simp only [insRes, if_pos hq1]
                    exact h2
                  · refine ⟨1, ?_⟩
                    simp only [updateEntryF]
                    simp only [if_neg hemp, hi, if_neg hie, hres0, if_neg hp1, if_pos hp2, hins]
                    simp only [insRes, if_neg hq1]
                    by_cases hq2 : inter.upper < s.upper
                    · simp only [if_pos hq2]
                      cases hins2 : insertT res1 ⟨inter.upper, s.upper⟩ v with
                      | none => simp [insRes]
                      | some t2 => simp [insRes]
                    · simp only [if_neg hq2]
                      exact fun hc => RunResult.noConfusion hc
              · by_cases hq1 : inter.upper < seg.upper
                · obtain ⟨n2, h2⟩ := ihw (segWidth ⟨inter.upper, seg.upper⟩) (hw2 hq1)
                    (size res0) res0 ⟨inter.upper, seg.upper⟩ f rfl rfl hinv0 hap0 hq1.le
                  refine ⟨n2 + 1, ?_⟩
                  simp only [updateEntryF]
                  simp only [if_neg hemp, hi, if_neg hie, hres0, if_neg hp1, if_neg hp2]
                  simp only [if_pos hq1]
                  exact h2
                · refine ⟨1, ?_⟩
                  simp only [updateEntryF]
                  simp only [if_neg hemp, hi, if_neg hie, hres0, if_neg hp1, if_neg hp2]
                  simp only [if_neg hq1]
                  by_cases hq2 : inter.upper < s.upper
                  · simp only [if_pos hq2]
                    cases hins2 : insertT res0 ⟨inter.upper, s.upper⟩ v with
                    | none => simp [insRes]
                    | some t2 => simp [insRes]
                  · simp only [if_neg hq2]
                    exact fun hc => RunResult.noConfusion hc
      | none =>
        by_cases h6 : s.upper < seg.lower
        · obtain ⟨n0, h0⟩ := ihc (size r) (hsz r (Or.inr rfl)) r seg f rfl rfl ir hapr hwfs
          refine ⟨n0 + 1, ?_⟩
          simp only [updateEntryF]
          simp only [if_neg hemp, hi, if_pos h6]
          cases hres : updateEntryF n0 r seg f with
          | diverge => exact absurd hres h0
          | violation => exact fun hc => RunResult.noConfusion hc
          | ok r' => exact fun hc => RunResult.noConfusion hc
        · obtain ⟨n0, h0⟩ := ihc (size l) (hsz l (Or.inl rfl)) l seg f rfl rfl il hapl hwfs
          refine ⟨n0 + 1, ?_⟩
          simp only [updateEntryF]
          simp only [if_neg hemp, hi, if_neg h6]
          cases hres : updateEntryF n0 l seg f with
          | diverge => exact absurd hres h0
          | violation => exact fun hc => RunResult.noConfusion hc
          | ok l' => exact fun hc => RunResult.noConfusion hc

end SegMap

namespace SegMap

variable {K V : Type} [LinearOrder K]

/-- Zero-width update at a point in a gap (outside the closed hull of
every stored segment): when the update function produces a value, a
zero-width entry is created there and everything else is unchanged. -/
theorem upd_gap_point : ∀ (t : SegMap K V) (seg : Segment K) (w : V)
    (f : Segment K → Option V → Option V),
    seg.isEmpty → (∀ u ∈ t.segsM, ¬(u.lower ≤ seg.lower ∧ seg.lower ≤ u.upper)) →
    f seg none = some w →
    ∀ n, size t < n → ∃ r, updateEntryF n t seg f = .ok r ∧
      r.entriesM = (seg, w) ::ₘ t.entriesM := by
  intro t
  induction t with
  | nil =>
    intro seg w f hemp hgap hfw n hn
    cases n with
    | zero => exact absurd hn (by simp)
    | succ m =>
      refine ⟨.node seg w .nil .nil, ?_, by simp⟩
      simp only [updateEntryF, hfw]
  | node s v l r ihl ihr =>
    intro seg w f hemp hgap hfw n hn
    cases n with
    | zero => exact absurd hn (by simp)
    | succ m =>
      have hemp' : seg.lower = seg.upper := hemp
      have hs := hgap s (mem_segs_root s v l r)
      have hnenc : ¬ s.encloses seg := by
        intro hcc
        exact hs ⟨hcc.1, by rw [hemp']; exact hcc.2⟩
      simp only [updateEntryF]
      rw [if_pos hemp, if_neg hnenc]
      by_cases h4 : seg.upper < s.lower
      · rw [if_pos h4]
        obtain ⟨l', hl', he⟩ := ihl seg w f hemp
          (fun u hu => hgap u (mem_segs_left s v r hu)) hfw m
          (by simp only [size] at hn; omega)
        rw [hl']
        refine ⟨_, rfl, ?_⟩
        simp [he, Multiset.cons_add, Multiset.cons_swap]
      · rw [if_neg h4]
        obtain ⟨r', hr', he⟩ := ihr seg w f hemp
          (fun u hu => hgap u (mem_segs_right s v l hu)) hfw m
          (by simp only [size] at hn; omega)
        rw [hr']
        refine ⟨_, rfl, ?_⟩
        rw [entriesM_node, entriesM_node, he]
        rw [Multiset.add_cons, Multiset.cons_swap]

end SegMap

namespace SegMap

variable {K V : Type} [LinearOrder K]

/-- Entry-level account of the tail of the strictly-interior empty-target
branch: the two half reinsertions succeed and add exactly the two half
entries. -/
theorem upd_split_tail {s : Segment K} {v : V} {l r res0 : SegMap K V} {seg : Segment K}
    (hinv : Inv (SegMap.node s v l r))
    (hemp : seg.lower = seg.upper) (hsl : s.lower < seg.lower)
    (hsu : seg.upper < s.upper)
    (hinv0 : Inv res0)
    (hside0 : ∀ x ∈ res0.segsM, x.upper ≤ s.lower ∨ s.upper ≤ x.lower ∨
      (seg.lower ≤ x.lower ∧ x.upper ≤ seg.upper)) :
    ∃ r2, (match insertT res0 ⟨s.lower, seg.lower⟩ v with
      | none => RunResult.violation
      | some res1 => insRes (insertT res1 ⟨seg.upper, s.upper⟩ v)) = .ok r2 ∧
      r2.entriesM = (⟨seg.upper, s.upper⟩, v) ::ₘ (⟨s.lower, seg.lower⟩, v) ::ₘ
        res0.entriesM := by
  have hsegsu : seg.lower < s.upper := by rw [hemp]; exact hsu
  have hsp : s.lower < s.upper := hsl.trans hsegsu
  have hcompat1 : ∀ u ∈ res0.segsM, SegCompat ⟨s.lower, seg.lower⟩ u := by
    intro u hu
    rcases hside0 u hu with h1 | h2 | h3
    · refine ⟨Or.inr h1, fun hc => ?_⟩
      rw [← hc] at h1
      exact absurd hsl (not_lt.mpr h1)
    · refine ⟨Or.inl (hsegsu.le.trans h2), fun hc => ?_⟩
      rw [← hc] at h2
      exact absurd (hsp.trans_le h2) (lt_irrefl _)
    · refine ⟨Or.inl h3.1, fun hc => ?_⟩
      rw [← hc] at h3
      exact absurd hsl (not_lt.mpr h3.1)
  obtain ⟨t1, ht1⟩ := insert_of_compat (g := ⟨s.lower, seg.lower⟩) v hcompat1
  have hent1 : t1.entriesM = (⟨s.lower, seg.lower⟩, v) ::ₘ res0.entriesM :=
    insert_entries ht1
  have hsegst1 : t1.segsM = (⟨s.lower, seg.lower⟩ : Segment K) ::ₘ res0.segsM :=
    insert_segs ht1
  rw [ht1]
  have hcompat2 : ∀ x ∈ t1.segsM, SegCompat ⟨seg.upper, s.upper⟩ x := by
    intro x hx
    rw [hsegst1] at hx
    rcases Multiset.mem_cons.mp hx with rfl | hx
    · refine ⟨Or.inr hemp.le, fun hc => ?_⟩
      have h4 := congrArg Segment.lower hc
      simp only at h4
      have h5 := hsl
      rw [hemp] at h5
      exact absurd (h5.trans_le h4.le) (lt_irrefl _)
    · rcases hside0 x hx with h1 | h2 | h3
      · refine ⟨Or.inr (h1.trans (hsl.le.trans hemp.le)), fun hc => ?_⟩
        rw [← hc] at h1
        exact absurd (hsp.trans_le h1) (lt_irrefl _)
      · refine ⟨Or.inl h2, fun hc => ?_⟩
        rw [← hc] at h2
        exact absurd (hsu.trans_le h2) (lt_irrefl _)
      · refine ⟨Or.inr h3.2, fun hc => ?_⟩
        rw [← hc] at h3
        exact absurd (hsu.trans_le h3.2) (lt_irrefl _)
  obtain ⟨t2, ht2⟩ := insert_of_compat (g := ⟨seg.upper, s.upper⟩) v hcompat2
  show ∃ r2, insRes (insertT t1 ⟨seg.upper, s.upper⟩ v) = .ok r2 ∧ _
  rw [ht2]
  exact ⟨t2, rfl, by rw [insert_entries ht2, hent1]⟩

end SegMap


namespace SegMap

variable {K V : Type} [LinearOrder K] [DecidableEq K] [DecidableEq V]

/-- Zero-width update at a point strictly inside a stored segment, on an
invariant-satisfying tree: the stored entry is split into its two halves
(keeping its value), the zero-width entry appears exactly when the
update function supplies a value, and the result's entries are fully
accounted for (up to the node-removal drop `D`). -/
theorem upd_split : ∀ (t : SegMap K V) (seg u0 : Segment K) (v0 : V)
    (f : Segment K → Option V → Option V),
    Inv t → seg.isEmpty → (u0, v0) ∈ t.entriesM →
    u0.lower < seg.lower → seg.upper < u0.upper →
    ∀ n, size t < n → ∃ r D, updateEntryF n t seg f = .ok r ∧
      (⟨u0.lower, seg.lower⟩, v0) ∈ r.entriesM ∧
      (⟨seg.upper, u0.upper⟩, v0) ∈ r.entriesM ∧
      (∀ w', f seg (some v0) = some w' → (seg, w') ∈ r.entriesM) ∧
      D + r.entriesM = (⟨u0.lower, seg.lower⟩, v0) ::ₘ (⟨seg.upper, u0.upper⟩, v0) ::ₘ
        ((match f seg (some v0) with
          | some w' => {(seg, w')}
          | none => (0 : Multiset (Segment K × V))) + (t.entriesM.erase (u0, v0))) := by
  intro t
  induction t with
  | nil =>
    intro seg u0 v0 f _ _ hm _ _ _ _
    exact absurd hm (by simp)
  | node s v l r ihl ihr =>
    intro seg u0 v0 f hinv hemp hm hlo hup n hn
    obtain ⟨hwf, hL, hR, il, ir⟩ := inv_node_iff.mp hinv
    have hemp' : seg.lower = seg.upper := hemp
    cases n with
    | zero => exact absurd hn (by simp)
    | succ m =>
      rcases by simpa using hm with ⟨rfl, rfl⟩ | hm | hm
      · -- the target point is strictly inside the root segment
        have henc : u0.encloses seg := ⟨hlo.le, hup.le⟩
        have heq : ¬(seg.lower = u0.lower ∧ seg.upper = u0.upper) :=
          fun hcc => absurd hcc.1 (ne_of_gt hlo)
        have h2 : ¬ seg.lower = u0.lower := ne_of_gt hlo
        have h3 : ¬ seg.upper = u0.upper := ne_of_lt hup
        have hexc_mem : ∀ u ∈ (excise l r).segsM, u ∈ l.segsM ∨ u ∈ r.segsM := by
          intro u hu
          exact Multiset.mem_add.mp (Multiset.mem_of_le (excise_segs_le l r) hu)
        have hside_exc : ∀ x ∈ (excise l r).segsM,
            x.upper ≤ u0.lower ∨ u0.upper ≤ x.lower ∨
            (seg.lower ≤ x.lower ∧ x.upper ≤ seg.upper) := by
          intro x hx
          rcases hexc_mem x hx with hxl | hxr
          · exact Or.inl (hL x hxl).1
          · exact Or.inr (Or.inl (hR x hxr).1)
        obtain ⟨D0, hD0⟩ : ∃ D0, l.entriesM + r.entriesM = (excise l r).entriesM + D0 :=
          Multiset.le_iff_exists_add.mp (excise_entries_le l r)
        simp only [updateEntryF]
        rw [if_pos hemp, if_pos henc, if_neg heq, if_neg h2, if_neg h3]
        cases hf : f seg (some v0) with
        | none =>
          obtain ⟨r2, hr2, hent⟩ :=
            upd_split_tail hinv hemp' hlo hup (excise_inv hinv) hside_exc
          refine ⟨r2, D0, hr2, ?_, ?_, ?_, ?_⟩
          · rw [hent]
            exact Multiset.mem_cons_of_mem (Multiset.mem_cons_self _ _)
          · rw [hent]
            exact Multiset.mem_cons_self _ _
          · intro w' hw'
            cases hw'
          · rw [hent, entriesM_node, Multiset.erase_cons_head, hD0]
            simp only []
            simp only [← Multiset.singleton_add]
            abel
        | some w' =>
          have hsegsu : seg.lower < u0.upper := by rw [hemp']; exact hup
          have hcompatseg : ∀ u ∈ (excise l r).segsM, SegCompat seg u := by
            intro u hu
            rcases hexc_mem u hu with hul | hur
            · refine ⟨Or.inr ((hL u hul).1.trans hlo.le), fun hc => ?_⟩
              have h1 : u.upper ≤ u0.lower := (hL u hul).1
              rw [← hc] at h1
              exact absurd (hlo.trans_le (hemp'.le.trans h1)) (lt_irrefl _)
            · refine ⟨Or.inl ((hup.trans_le (hR u hur).1).le), fun hc => ?_⟩
              have h1 : u0.upper ≤ u.lower := (hR u hur).1
              rw [← hc] at h1
              exact absurd (hsegsu.trans_le h1) (lt_irrefl _)
          obtain ⟨t0, ht0⟩ := insert_of_compat (g := seg) w' hcompatseg
          have hinv0 : Inv t0 := insert_inv (excise_inv hinv) hemp'.le ht0
          have hent0 : t0.entriesM = (seg, w') ::ₘ (excise l r).entriesM :=
            insert_entries ht0
          have hsegst0 : t0.segsM = seg ::ₘ (excise l r).segsM := insert_segs ht0
          have hside0 : ∀ x ∈ t0.segsM, x.upper ≤ u0.lower ∨ u0.upper ≤ x.lower ∨
              (seg.lower ≤ x.lower ∧ x.upper ≤ seg.upper) := by
            intro x hx
            rw [hsegst0] at hx
            rcases Multiset.mem_cons.mp hx with rfl | hx
            · exact Or.inr (Or.inr ⟨le_refl _, le_refl _⟩)
            · exact hside_exc x hx
          obtain ⟨r2, hr2, hent⟩ := upd_split_tail hinv hemp' hlo hup hinv0 hside0
          have hred : (match some w' with
              | some w => insertT (excise l r) seg w
              | none => some (excise l r)) = insertT (excise l r) seg w' := rfl
          rw [hred, ht0]
          refine ⟨r2, D0, hr2, ?_, ?_, ?_, ?_⟩
          · rw [hent]
            exact Multiset.mem_cons_of_mem (Multiset.mem_cons_self _ _)
          · rw [hent]
            exact Multiset.mem_cons_self _ _
          · intro w'' hw''
            injection hw'' with hw''
            subst hw''
            rw [hent, hent0]
            exact Multiset.mem_cons_of_mem (Multiset.mem_cons_of_mem
              (Multiset.mem_cons_self _ _))
          · rw [hent, hent0, entriesM_node, Multiset.erase_cons_head, hD0]
            simp only []
            simp only [← Multiset.singleton_add]
            abel
      · -- the stored entry is in the left subtree
        have husegs : u0 ∈ l.segsM := segsM_mem_of_entry hm
        have h4 : seg.upper < s.lower := hup.trans_le (hL u0 husegs).1
        have hnenc : ¬ s.encloses seg := by
          intro hcc
          exact absurd (hcc.1.trans_lt (by rw [hemp']; exact h4)) (lt_irrefl _)
        have hnes : (u0, v0) ≠ (s, v) :=
          fun hcc => (hL u0 husegs).2 (Prod.ext_iff.mp hcc).1
        simp only [updateEntryF]
        rw [if_pos hemp, if_neg hnenc, if_pos h4]
        obtain ⟨r', D, hr', hm1, hm2, hm3, heq⟩ := ihl seg u0 v0 f il hemp hm hlo hup m
          (by simp only [size] at hn; omega)
        rw [hr']
        refine ⟨.node s v r' r, D, rfl, by simp [hm1], by simp [hm2],
          fun w' hw' => by simp [hm3 w' hw'], ?_⟩
        rw [entriesM_node, entriesM_node, Multiset.erase_cons_tail _ (Ne.symm hnes),
          Multiset.erase_add_left_pos _ hm]
        calc D + ((s, v) ::ₘ (r'.entriesM + r.entriesM))
            = (D + r'.entriesM) + ({(s, v)} + r.entriesM) := by
              simp only [← Multiset.singleton_add]
              abel
          _ = ((⟨u0.lower, seg.lower⟩, v0) ::ₘ (⟨seg.upper, u0.upper⟩, v0) ::ₘ
                ((match f seg (some v0) with
                  | some w' => {(seg, w')}
                  | none => (0 : Multiset (Segment K × V))) +
                  (l.entriesM.erase (u0, v0)))) + ({(s, v)} + r.entriesM) := by
              rw [heq]
          _ = (⟨u0.lower, seg.lower⟩, v0) ::ₘ (⟨seg.upper, u0.upper⟩, v0) ::ₘ
                ((match f seg (some v0) with
                  | some w' => {(seg, w')}
                  | none => (0 : Multiset (Segment K × V))) +
                  ((s, v) ::ₘ (l.entriesM.erase (u0, v0) + r.entriesM))) := by
              simp only [← Multiset.singleton_add]
              abel
      · -- the stored entry is in the right subtree
        have husegs : u0 ∈ r.segsM := segsM_mem_of_entry hm
        have hlt : s.upper < seg.upper := by
          have h5 := (hR u0 husegs).1.trans_lt hlo
          rw [hemp'] at h5
          exact h5
        have hnenc : ¬ s.encloses seg := by
          intro hcc
          exact absurd (hlt.trans_le hcc.2) (lt_irrefl _)
        have h4 : ¬ seg.upper < s.lower := not_lt.mpr (hwf.trans hlt.le)
        have hnes : (u0, v0) ≠ (s, v) :=
          fun hcc => (hR u0 husegs).2 (Prod.ext_iff.mp hcc).1
        simp only [updateEntryF]
        rw [if_pos hemp, if_neg hnenc, if_neg h4]
        obtain ⟨r', D, hr', hm1, hm2, hm3, heq⟩ := ihr seg u0 v0 f ir hemp hm hlo hup m
          (by simp only [size] at hn; omega)
        rw [hr']
        refine ⟨.node s v l r', D, rfl, by simp [hm1], by simp [hm2],
          fun w' hw' => by simp [hm3 w' hw'], ?_⟩
        rw [entriesM_node, entriesM_node, Multiset.erase_cons_tail _ (Ne.symm hnes),
          Multiset.erase_add_right_pos _ hm]
        calc D + ((s, v) ::ₘ (l.entriesM + r'.entriesM))
            = (D + r'.entriesM) + ({(s, v)} + l.entriesM) := by
              simp only [← Multiset.singleton_add]
              abel
          _ = ((⟨u0.lower, seg.lower⟩, v0) ::ₘ (⟨seg.upper, u0.upper⟩, v0) ::ₘ
                ((match f seg (some v0) with
                  | some w' => {(seg, w')}
                  | none => (0 : Multiset (Segment K × V))) +
                  (r.entriesM.erase (u0, v0)))) + ({(s, v)} + l.entriesM) := by
              rw [heq]
          _ = (⟨u0.lower, seg.lower⟩, v0) ::ₘ (⟨seg.upper, u0.upper⟩, v0) ::ₘ
                ((match f seg (some v0) with
                  | some w' => {(seg, w')}
                  | none => (0 : Multiset (Segment K × V))) +
                  ((s, v) ::ₘ (l.entriesM + r.entriesM.erase (u0, v0)))) := by
              simp only [← Multiset.singleton_add]
              abel

end SegMap

namespace SegMap

variable {K V : Type} [LinearOrder K]

/-- Map states reachable from the empty map through the public
operations restricted to proper (positive-width) inserted and updated
segments; `remove` may take any well-formed target. -/
inductive ReachableP : SegMap K V → Prop
  | empty : ReachableP .nil
  | insert {t t' : SegMap K V} {seg : Segment K} {v} :
      ReachableP t → seg.lower < seg.upper → insertT t seg v = some t' → ReachableP t'
  | remove {t t' : SegMap K V} {seg : Segment K} {n} :
      ReachableP t → seg.lower ≤ seg.upper →
      removeF n t seg = .ok t' → ReachableP t'
  | update {t t' : SegMap K V} {seg : Segment K} {n f} :
      ReachableP t → seg.lower < seg.upper →
      updateF n t seg f = .ok t' → ReachableP t'
  | updateEntry {t t' : SegMap K V} {seg : Segment K} {n f} :
      ReachableP t → seg.lower < seg.upper →
      updateEntryF n t seg f = .ok t' → ReachableP t'

/-- Under the invariant, no zero-width stored segment sits strictly
inside another stored segment's interior. -/
theorem no_inner_point : ∀ (t : SegMap K V) (seg u0 : Segment K), Inv t →
    u0 ∈ t.segsM → seg ∈ t.segsM → seg.lower = seg.upper →
    u0.lower < seg.lower → seg.upper < u0.upper → False := by
  intro t
  induction t with
  | nil => intro seg u0 _ hm _ _ _ _; exact absurd hm (by simp)
  | node s v l r ihl ihr =>
    intro seg u0 hinv hm hs hemp hlo hup
    obtain ⟨hwf, hL, hR, il, ir⟩ := inv_node_iff.mp hinv
    have h1 : seg.lower < u0.upper := by rw [hemp]; exact hup
    have h2 : u0.lower < seg.upper := by rw [← hemp]; exact hlo
    have hm' : u0 = s ∨ u0 ∈ l.segsM ∨ u0 ∈ r.segsM := by simpa using hm
    have hs' : seg = s ∨ seg ∈ l.segsM ∨ seg ∈ r.segsM := by simpa using hs
    rcases hm' with he1 | hm1 | hm1
    · rcases hs' with he2 | hs1 | hs1
      · have h3 : u0 = seg := he1.trans he2.symm
        rw [h3] at hlo
        exact absurd hlo (lt_irrefl _)
      · have h3 : seg.upper ≤ u0.lower := by rw [he1]; exact (hL seg hs1).1
        exact absurd (h2.trans_le h3) (lt_irrefl _)
      · have h3 : u0.upper ≤ seg.lower := by rw [he1]; exact (hR seg hs1).1
        exact absurd (h1.trans_le h3) (lt_irrefl _)
    · rcases hs' with he2 | hs1 | hs1
      · have h3 : u0.upper ≤ seg.lower := by rw [he2]; exact (hL u0 hm1).1
        exact absurd (h1.trans_le h3) (lt_irrefl _)
      · exact ihl seg u0 il hm1 hs1 hemp hlo hup
      · have h3 : u0.upper ≤ seg.lower := ((hL u0 hm1).1.trans hwf).trans (hR seg hs1).1
        exact absurd (h1.trans_le h3) (lt_irrefl _)
    · rcases hs' with he2 | hs1 | hs1
      · have h3 : seg.upper ≤ u0.lower := by rw [he2]; exact (hR u0 hm1).1
        exact absurd (h2.trans_le h3) (lt_irrefl _)
      · have h3 : seg.upper ≤ u0.lower := ((hL seg hs1).1.trans hwf).trans (hR u0 hm1).1
        exact absurd (h2.trans_le h3) (lt_irrefl _)
      · exact ihr seg u0 ir hm1 hs1 hemp hlo hup

end SegMap

namespace SegMap

/-- One unfolding step of the diverging `update_entry` loop: on the
reversed stored segment `[10,0)` with target `[0,10)` the phase-one
recursion re-enters the same configuration. -/
theorem upd_div_loop : ∀ n, updateEntryF n
    (SegMap.node (⟨10, 0⟩ : Segment Int) (1 : Nat) .nil .nil) ⟨0, 10⟩
    (fun _ _ => some 1) = .diverge := by
  intro n
  induction n with
  | zero => rfl
  | succ n ih =>
    conv_lhs => rw [updateEntryF]
    norm_num [Segment.isEmpty, Segment.encloses, Segment.isConnected,
      Segment.intersection, excise, insertT, insRes, ih]

end SegMap

namespace SegMap

variable {K V : Type} [LinearOrder K]

theorem mem_segs_node_iff {s : Segment K} {v : V} {l r : SegMap K V} {u : Segment K} :
    u ∈ (SegMap.node s v l r).segsM ↔ u = s ∨ u ∈ l.segsM ∨ u ∈ r.segsM := by
  rw [segsM_node, Multiset.mem_cons, Multiset.mem_add]

/-- The leftmost lower bound reached by `min_key` is the lower bound of
a stored segment and bounds every stored lower bound from below. -/
theorem minKey_spec : ∀ (l : SegMap K V) (s : Segment K) (v : V) (r : SegMap K V),
    Inv (SegMap.node s v l r) →
    (∃ x ∈ (SegMap.node s v l r).segsM, minKey s l = x.lower) ∧
    (∀ u ∈ (SegMap.node s v l r).segsM, minKey s l ≤ u.lower) := by
  intro l
  induction l with
  | nil =>
    intro s v r hinv
    obtain ⟨hwf, hL, hR, il, ir⟩ := inv_node_iff.mp hinv
    refine ⟨⟨s, mem_segs_root s v .nil r, rfl⟩, ?_⟩
    intro u hu
    rcases mem_segs_node_iff.mp hu with rfl | hu | hu
    · exact le_refl _
    · exact absurd hu (by simp)
    · exact hwf.trans (hR u hu).1
  | node ls lv ll lr ihll ihlr =>
    intro s v r hinv
    obtain ⟨hwf, hL, hR, il, ir⟩ := inv_node_iff.mp hinv
    obtain ⟨⟨x, hxmem, hxeq⟩, hmin⟩ := ihll ls lv lr il
    simp only [minKey]
    constructor
    · exact ⟨x, mem_segs_left s v r hxmem, hxeq⟩
    · intro u hu
      rcases mem_segs_node_iff.mp hu with rfl | hu | hu
      · rw [hxeq]
        exact (inv_wf il x hxmem).trans (hL x hxmem).1
      · exact hmin u hu
      · rw [hxeq]
        exact ((inv_wf il x hxmem).trans (hL x hxmem).1).trans (hwf.trans (hR u hu).1)

/-- Mirror image of `minKey_spec` for `max_key`. -/
theorem maxKey_spec : ∀ (r : SegMap K V) (s : Segment K) (v : V) (l : SegMap K V),
    Inv (SegMap.node s v l r) →
    (∃ x ∈ (SegMap.node s v l r).segsM, maxKey s r = x.upper) ∧
    (∀ u ∈ (SegMap.node s v l r).segsM, u.upper ≤ maxKey s r) := by
  intro r
  induction r with
  | nil =>
    intro s v l hinv
    obtain ⟨hwf, hL, hR, il, ir⟩ := inv_node_iff.mp hinv
    refine ⟨⟨s, mem_segs_root s v l .nil, rfl⟩, ?_⟩
    intro u hu
    rcases mem_segs_node_iff.mp hu with rfl | hu | hu
    · exact le_refl _
    · exact (hL u hu).1.trans hwf
    · exact absurd hu (by simp)
  | node rs rv rl rr ihrl ihrr =>
    intro s v l hinv
    obtain ⟨hwf, hL, hR, il, ir⟩ := inv_node_iff.mp hinv
    obtain ⟨⟨x, hxmem, hxeq⟩, hmax⟩ := ihrr rs rv rl ir
    simp only [maxKey]
    constructor
    · exact ⟨x, mem_segs_right s v l hxmem, hxeq⟩
    · intro u hu
      rcases mem_segs_node_iff.mp hu with rfl | hu | hu
      · rw [hxeq]
        exact (hR x hxmem).1.trans (inv_wf ir x hxmem)
      · rw [hxeq]
        exact ((hL u hu).1.trans hwf).trans ((hR x hxmem).1.trans (inv_wf ir x hxmem))
      · exact hmax u hu

end SegMap
namespace SegMap

/-! Concrete sample maps used by the claim witnesses and counterexamples. -/

/-- A zero-width entry at 5, as produced by a plain insert of `[5,5)`. -/
def tb1 : SegMap Int Nat := .node ⟨5, 5⟩ 0 .nil .nil

/-- `tb1` after a plain insert of `[0,2) -> 1`. -/
def tb2 : SegMap Int Nat := .node ⟨5, 5⟩ 0 (.node ⟨0, 2⟩ 1 .nil .nil) .nil

/-- `tb2` after `update_entry` over `[3,9)` storing 7: the new segment is
routed into the left subtree of the zero-width root and the BST order
breaks. -/
def tb3 : SegMap Int Nat :=
  .node ⟨5, 5⟩ 0 (.node ⟨0, 2⟩ 1 .nil (.node ⟨3, 9⟩ 7 .nil .nil)) .nil

/-- Four disjoint proper segments inserted in the order
`[6,12) [0,6) [12,18) [18,24)`. -/
def t4c2 : SegMap Int Nat :=
  .node ⟨6, 12⟩ 0 (.node ⟨0, 6⟩ 1 .nil .nil)
    (.node ⟨12, 18⟩ 2 .nil (.node ⟨18, 24⟩ 3 .nil .nil))

/-- What `remove [6,12)` leaves of `t4c2`: the extracted minimum's right
subtree (holding `[18,24) -> 3`) has been dropped. -/
def t4c2r : SegMap Int Nat := .node ⟨12, 18⟩ 2 (.node ⟨0, 6⟩ 1 .nil .nil) .nil

/-- Two adjacent segments carrying the same value. -/
def tc10 : SegMap Int Nat := .node ⟨0, 6⟩ 5 .nil (.node ⟨6, 12⟩ 5 .nil .nil)

/-- A single proper entry, target of a conflicting insert. -/
def c4t : SegMap Int Nat := .node ⟨0, 2⟩ 10 .nil .nil

/-- A single proper entry away from the probed range. -/
def c5t : SegMap Int Nat := .node ⟨0, 4⟩ 7 .nil .nil

/-- A single entry `[20,30) -> 5`, later joined by `[0,10) -> 5`. -/
def c8t : SegMap Int Nat := .node ⟨20, 30⟩ 5 .nil .nil

/-- `c8t` after inserting `[0,10) -> 5`. -/
def c8t2 : SegMap Int Nat := .node ⟨20, 30⟩ 5 (.node ⟨0, 10⟩ 5 .nil .nil) .nil

end SegMap

namespace SegMap

variable {K V : Type} [LinearOrder K]

/-- `update` is `update_entry` with the segment argument discarded. -/
theorem updF_eq (n : Nat) (t : SegMap K V) (seg : Segment K)
    (f : Option V → Option V) :
    updateF n t seg f = updateEntryF n t seg (fun _ w => f w) := rfl

/-- The broken tree `tb3` is reachable from the empty map through public
operations with well-formed arguments: two successful plain inserts
followed by an `update_entry` over the well-formed target `[3,9)`. -/
theorem reach_tb3 : Reachable tb3 := by
  have h1 : Reachable tb1 := Reachable.insert Reachable.empty
    (show insertT (SegMap.nil : SegMap Int Nat) ⟨5, 5⟩ 0 = some tb1 from rfl)
  have h2 : Reachable tb2 := Reachable.insert h1
    (show insertT tb1 ⟨0, 2⟩ 1 = some tb2 from by decide)
  exact Reachable.updateEntry h2 (by decide)
    (show updateEntryF 3 tb2 ⟨3, 9⟩ (fun _ _ => some 7) = RunResult.ok tb3 from by decide)

end SegMap

namespace SegMap

variable {K V : Type} [LinearOrder K]

/-- C1: every map reachable from the empty map through the public
operations with proper (nonempty) target segments for
insert/update/update_entry and well-formed targets for remove satisfies
the BST/disjointness invariant, and stores no zero-width segment. -/
theorem proper_ops_preserve_invariant (t : SegMap K V) (h : ReachableP t) :
    Inv t ∧ AllProper t := by
  induction h with
  | empty => exact ⟨trivial, fun x hx => absurd hx (by simp)⟩
  | @insert t t' seg v hr hp hins ih =>
    refine ⟨insert_inv ih.1 hp.le hins, ?_⟩
    intro x hx
    rw [insert_segs hins] at hx
    rcases Multiset.mem_cons.mp hx with rfl | hx
    · exact hp
    · exact ih.2 x hx
  | @remove t t' seg n hr hwf hrem ih =>
    have hg := remove_good n t seg ih.1 hwf
    rw [hrem] at hg
    exact ⟨hg.1, fun x hx => (hg.2.2 x hx).elim (fun h0 => ih.2 x h0) id⟩
  | @update t t' seg n f hr hp hupd ih =>
    rw [updF_eq] at hupd
    have hg := update_good n t seg (fun _ w => f w) ih.1 ih.2 hp.le
    rw [hupd] at hg
    exact ⟨hg.1, hg.2.2 hp⟩
  | @updateEntry t t' seg n f hr hp hupd ih =>
    have hg := update_good n t seg f ih.1 ih.2 hp.le
    rw [hupd] at hg
    exact ⟨hg.1, hg.2.2 hp⟩

/-- C1 witness: the invariant of the concrete reachable map `tc10`. -/
theorem proper_ops_preserve_invariant_witness : Inv tc10 ∧ AllProper tc10 :=
  proper_ops_preserve_invariant tc10
    (ReachableP.insert
      (ReachableP.insert ReachableP.empty (by decide)
        (show insertT (SegMap.nil : SegMap Int Nat) ⟨0, 6⟩ 5 =
          some (SegMap.node ⟨0, 6⟩ 5 .nil .nil) from rfl))
      (by decide)
      (show insertT (SegMap.node ⟨0, 6⟩ 5 .nil .nil) ⟨6, 12⟩ 5 = some tc10 from by decide))

/-- C1 counterexample: a map reachable through public operations with
well-formed arguments (the claim's hypothesis, which admits zero-width
inserts) that violates the BST invariant. -/
theorem invariant_break_cex : Reachable tb3 ∧ ¬ Inv tb3 := ⟨reach_tb3, by decide⟩

/-- C2: on the reachable, invariant-satisfying map `t4c2`, removing
`[6,12)` silently also erases the entry `[18,24) -> 3`: the point 20 was
mapped to 3 before the call, lies outside the removed segment, and is
unmapped afterwards (the node-removal drops the extracted minimum's
right subtree). -/
theorem remove_subtree_loss_eval :
    Reachable t4c2 ∧ Inv t4c2 ∧
    removeF 2 t4c2 ⟨6, 12⟩ = .ok t4c2r ∧
    get t4c2 20 = some 3 ∧ get t4c2r 20 = none ∧
    ¬ (⟨6, 12⟩ : Segment Int).contains 20 := by
  refine ⟨?_, by decide, by decide, by decide, by decide, by decide⟩
  have h1 : Reachable (SegMap.node ⟨6, 12⟩ 0 .nil .nil : SegMap Int Nat) :=
    Reachable.insert Reachable.empty
      (show insertT (SegMap.nil : SegMap Int Nat) ⟨6, 12⟩ 0 =
        some (SegMap.node ⟨6, 12⟩ 0 .nil .nil) from rfl)
  have h2 : Reachable (SegMap.node ⟨6, 12⟩ 0 (.node ⟨0, 6⟩ 1 .nil .nil) .nil :
      SegMap Int Nat) :=
    Reachable.insert h1
      (show insertT (SegMap.node ⟨6, 12⟩ 0 .nil .nil) ⟨0, 6⟩ 1 =
        some (SegMap.node ⟨6, 12⟩ 0 (.node ⟨0, 6⟩ 1 .nil .nil) .nil) from by decide)
  have h3 : Reachable (SegMap.node ⟨6, 12⟩ 0 (.node ⟨0, 6⟩ 1 .nil .nil)
      (.node ⟨12, 18⟩ 2 .nil .nil) : SegMap Int Nat) :=
    Reachable.insert h2
      (show insertT (SegMap.node ⟨6, 12⟩ 0 (.node ⟨0, 6⟩ 1 .nil .nil) .nil) ⟨12, 18⟩ 2 =
        some (SegMap.node ⟨6, 12⟩ 0 (.node ⟨0, 6⟩ 1 .nil .nil)
          (.node ⟨12, 18⟩ 2 .nil .nil)) from by decide)
  exact Reachable.insert h3
    (show insertT (SegMap.node ⟨6, 12⟩ 0 (.node ⟨0, 6⟩ 1 .nil .nil)
        (.node ⟨12, 18⟩ 2 .nil .nil)) ⟨18, 24⟩ 3 = some t4c2 from by decide)

/-- C3: `update` with the constant `None` function is exactly `remove`,
at every fuel, on every tree, for every target segment. -/
theorem update_none_is_remove : ∀ (n : Nat) (t : SegMap K V) (seg : Segment K),
    updateF n t seg (fun _ => none) = removeF n t seg :=
  fun n t seg => upd_rem_eq n t seg

/-- C4: on an invariant-satisfying map, a plain insert fails exactly
when some stored segment conflicts with the new one (identical, or
neither entirely at/below its lower bound nor entirely at/above its
upper bound), and a successful insert adds exactly the new entry,
leaving every other entry unchanged. -/
theorem insert_contract {t : SegMap K V} (seg : Segment K) (v : V) (hinv : Inv t) :
    (insertT t seg v = none ↔ ∃ u ∈ t.segsM, ¬ SegCompat seg u) ∧
    (∀ t', insertT t seg v = some t' → t'.entriesM = (seg, v) ::ₘ t.entriesM) := by
  refine ⟨⟨?_, ?_⟩, fun t' h => insert_entries h⟩
  · intro h
    by_contra hc
    push_neg at hc
    obtain ⟨t', ht'⟩ := insert_of_compat v hc
    rw [ht'] at h
    exact Option.noConfusion h
  · rintro ⟨u, hu, hbad⟩
    exact insert_none_of_conflict v hinv hu hbad

/-- C4 witness: the contract at the concrete map `c4t` and segment `[1,3)`. -/
theorem insert_contract_witness :
    (insertT c4t ⟨1, 3⟩ 5 = none ↔ ∃ u ∈ c4t.segsM, ¬ SegCompat ⟨1, 3⟩ u) ∧
    (∀ t', insertT c4t ⟨1, 3⟩ 5 = some t' →
      t'.entriesM = (⟨1, 3⟩, (5 : Nat)) ::ₘ c4t.entriesM) :=
  insert_contract ⟨1, 3⟩ 5 (by decide)

/-- C5: on an invariant-satisfying map with a well-formed target,
`remove` never reaches the overlap contract violation; `update_entry`
does not either when additionally no stored segment is zero-width;
removing a proper range that overlaps nothing stored is a no-op; and
looking up a key contained in no stored segment yields `none`. -/
theorem remove_update_get_safe {t : SegMap K V} {seg : Segment K}
    (hinv : Inv t) (hwfs : seg.lower ≤ seg.upper) :
    (∀ n, removeF n t seg ≠ .violation) ∧
    (AllProper t → ∀ n f, updateEntryF n t seg f ≠ .violation) ∧
    (seg.lower < seg.upper →
      (∀ u ∈ t.segsM, seg.upper ≤ u.lower ∨ u.upper ≤ seg.lower) →
      ∀ n, size t < n → removeF n t seg = .ok t) ∧
    (∀ k, (∀ u ∈ t.segsM, ¬ u.contains k) → get t k = none) := by
  refine ⟨?_, ?_, fun hp hdis n hn => remove_noop t seg hinv hp hdis n hn,
    fun k h => get_none h⟩
  · intro n hc
    have hg := remove_good n t seg hinv hwfs
    rw [hc] at hg
    exact hg
  · intro hap n f hc
    have hg := update_good n t seg f hinv hap hwfs
    rw [hc] at hg
    exact hg

/-- C5 witness: safety of the operations at the concrete map `c5t` with
target `[6,8)`. -/
theorem remove_update_get_safe_witness :
    (∀ n, removeF n c5t ⟨6, 8⟩ ≠ .violation) ∧
    (AllProper c5t → ∀ n f, updateEntryF n c5t ⟨6, 8⟩ f ≠ .violation) ∧
    ((6 : Int) < 8 →
      (∀ u ∈ c5t.segsM, (8 : Int) ≤ u.lower ∨ u.upper ≤ (6 : Int)) →
      ∀ n, size c5t < n → removeF n c5t ⟨6, 8⟩ = .ok c5t) ∧
    (∀ k, (∀ u ∈ c5t.segsM, ¬ u.contains k) → get c5t k = none) :=
  remove_update_get_safe (by decide) (by decide)

/-- C5 counterexample: with a reversed target segment `[8,2)` the
internal reinsertion of remainder fragments does hit the overlap
contract violation, even on a well-formed single-entry map. -/
theorem remove_reversed_target_cex :
    Inv (SegMap.node ⟨0, 10⟩ 0 .nil .nil : SegMap Int Nat) ∧
    removeF 1 (SegMap.node ⟨0, 10⟩ 0 .nil .nil : SegMap Int Nat) ⟨8, 2⟩ = .violation := by
  decide

end SegMap

namespace SegMap

/-- C6: over integer keys, `remove` terminates on every
invariant-satisfying tree with a well-formed target, and `update_entry`
terminates on every invariant-satisfying tree without zero-width stored
segments with a well-formed target: some fuel suffices. -/
theorem terminates_on_inv :
    (∀ (W : Type) (t : SegMap Int W) (seg : Segment Int), Inv t →
      seg.lower ≤ seg.upper → ∃ n, removeF n t seg ≠ RunResult.diverge) ∧
    (∀ (W : Type) (t : SegMap Int W) (seg : Segment Int)
      (f : Segment Int → Option W → Option W), Inv t → AllProper t →
      seg.lower ≤ seg.upper → ∃ n, updateEntryF n t seg f ≠ RunResult.diverge) :=
  ⟨fun W t seg h1 h2 => removeF_total_aux (segWidth seg) (size t) t seg rfl rfl h1 h2,
   fun W t seg f h1 h2 h3 =>
     updateEntryF_total_aux (segWidth seg) (size t) t seg f rfl rfl h1 h2 h3⟩

/-- C6 counterexample: on a tree storing the reversed segment `[10,0)`,
`update_entry` over `[0,10)` re-enters the same configuration forever:
no fuel makes it return. -/
theorem update_entry_divergence_cex :
    ¬ ∃ n, updateEntryF n (SegMap.node ⟨10, 0⟩ 1 .nil .nil : SegMap Int Nat) ⟨0, 10⟩
      (fun _ _ => some 1) ≠ RunResult.diverge := by
  rintro ⟨n, hn⟩
  exact hn (upd_div_loop n)

end SegMap

namespace SegMap

variable {K V : Type} [LinearOrder K] [DecidableEq K] [DecidableEq V]

/-- C7: a zero-width update at a point covered by no stored segment
creates exactly the zero-width entry there when the update function
produces a value; at a point strictly inside a stored segment
`[l,u) -> v` it splits that entry into `[l,a) -> v` and `[a,u) -> v`,
removes the original, and stores a zero-width entry at the point exactly
when the update function supplies a value for the present one. -/
theorem empty_update_points :
    (∀ (t : SegMap K V) (seg : Segment K) (w : V)
      (f : Segment K → Option V → Option V),
      seg.isEmpty → (∀ u ∈ t.segsM, ¬(u.lower ≤ seg.lower ∧ seg.lower ≤ u.upper)) →
      f seg none = some w →
      ∀ n, size t < n → ∃ r, updateEntryF n t seg f = .ok r ∧
        r.entriesM = (seg, w) ::ₘ t.entriesM) ∧
    (∀ (t : SegMap K V) (seg u0 : Segment K) (v0 : V)
      (f : Segment K → Option V → Option V),
      Inv t → seg.isEmpty → (u0, v0) ∈ t.entriesM →
      u0.lower < seg.lower → seg.upper < u0.upper →
      ∀ n, size t < n → ∃ r, updateEntryF n t seg f = .ok r ∧
        (⟨u0.lower, seg.lower⟩, v0) ∈ r.entriesM ∧
        (⟨seg.upper, u0.upper⟩, v0) ∈ r.entriesM ∧
        (∀ w', f seg (some v0) = some w' → (seg, w') ∈ r.entriesM) ∧
        (u0, v0) ∉ r.entriesM ∧
        (f seg (some v0) = none → ∀ w', (seg, w') ∉ r.entriesM)) := by
  refine ⟨upd_gap_point, ?_⟩
  intro t seg u0 v0 f hinv hemp hm hlo hup n hn
  obtain ⟨r, D, hok, h1, h2, h3, hD⟩ := upd_split t seg u0 v0 f hinv hemp hm hlo hup n hn
  have hnd : t.entriesM.Nodup := Multiset.Nodup.of_map Prod.fst (segs_nodup hinv)
  have hself : seg.lower = seg.upper := hemp
  refine ⟨r, hok, h1, h2, h3, ?_, ?_⟩
  · intro hc
    have hc2 : (u0, v0) ∈ D + r.entriesM := Multiset.mem_add.mpr (Or.inr hc)
    rw [hD] at hc2
    rcases Multiset.mem_cons.mp hc2 with he | hc2
    · have he1 : u0.upper = seg.lower := congrArg (fun p => Segment.upper p.1) he
      rw [hself] at he1
      rw [he1] at hup
      exact absurd hup (lt_irrefl _)
    rcases Multiset.mem_cons.mp hc2 with he | hc2
    · have he1 : u0.lower = seg.upper := congrArg (fun p => Segment.lower p.1) he
      rw [← hself] at he1
      rw [he1] at hlo
      exact absurd hlo (lt_irrefl _)
    rcases Multiset.mem_add.mp hc2 with hc3 | hc3
    · cases hf : f seg (some v0) with
      | none =>
        rw [hf] at hc3
        simp at hc3
      | some w' =>
        rw [hf] at hc3
        have he : (u0, v0) = (seg, w') := by simpa using hc3
        have he1 : u0 = seg := congrArg Prod.fst he
        rw [he1] at hlo
        exact absurd hlo (lt_irrefl _)
    · exact hnd.not_mem_erase hc3
  · intro hf w' hc
    have hc2 : (seg, w') ∈ D + r.entriesM := Multiset.mem_add.mpr (Or.inr hc)
    rw [hD] at hc2
    rcases Multiset.mem_cons.mp hc2 with he | hc2
    · have he1 : seg.lower = u0.lower := congrArg (fun p => Segment.lower p.1) he
      rw [he1] at hlo
      exact absurd hlo (lt_irrefl _)
    rcases Multiset.mem_cons.mp hc2 with he | hc2
    · have he1 : seg.upper = u0.upper := congrArg (fun p => Segment.upper p.1) he
      rw [he1] at hup
      exact absurd hup (lt_irrefl _)
    rcases Multiset.mem_add.mp hc2 with hc3 | hc3
    · rw [hf] at hc3
      simp at hc3
    · have hmem2 : (seg, w') ∈ t.entriesM := Multiset.mem_of_mem_erase hc3
      exact no_inner_point t seg u0 hinv (segsM_mem_of_entry hm)
        (segsM_mem_of_entry hmem2) hself hlo hup

end SegMap

namespace SegMap

variable {K V : Type} [LinearOrder K]

/-- C8: after a successful insert of `[a,b) -> v` on an
invariant-satisfying map, the point search returns that very entry at
`k` exactly when `a <= k < b`. -/
theorem insert_roundtrip_get {t t' : SegMap K V} {a b : K} {v : V}
    (hinv : Inv t) (hwf : a ≤ b) (h : insertT t ⟨a, b⟩ v = some t') (k : K) :
    getEntry t' k = some (⟨a, b⟩, v) ↔ (a ≤ k ∧ k < b) := by
  have hinv' : Inv t' := insert_inv hinv hwf h
  rw [getEntry_iff hinv']
  constructor
  · rintro ⟨hm, hc⟩
    exact hc
  · intro hc
    refine ⟨?_, hc⟩
    rw [insert_entries h]
    exact Multiset.mem_cons_self _ _

/-- C8 witness: the round trip at the concrete maps `c8t`, `c8t2` and
key 5. -/
theorem insert_roundtrip_get_witness :
    getEntry c8t2 (5 : Int) = some (⟨0, 10⟩, 5) ↔ ((0 : Int) ≤ 5 ∧ (5 : Int) < 10) :=
  insert_roundtrip_get (t := c8t) (by decide) (by decide) (by decide) 5

/-- C8 counterexample: with nothing overlapping `[0,10)` stored,
inserting `[0,10) -> 5` succeeds, yet `get 25 = some 5` although
25 lies outside `[0,10)` — a pre-existing entry carries the same value,
so the value-based round trip fails. -/
theorem roundtrip_value_collision_cex :
    Inv c8t ∧ (∀ u ∈ c8t.segsM, (10 : Int) ≤ u.lower ∨ u.upper ≤ (0 : Int)) ∧
    insertT c8t ⟨0, 10⟩ 5 = some c8t2 ∧ get c8t2 25 = some 5 ∧
    ¬ ((0 : Int) ≤ 25 ∧ (25 : Int) < 10) := by
  decide

/-- C9: the span of the empty map is `none`; on every
invariant-satisfying nonempty map, the span runs from the lower bound of
some stored segment that minimises the lower bounds to the upper bound
of some stored segment that maximises the upper bounds. -/
theorem span_bounds :
    (span (SegMap.nil : SegMap K V) = none) ∧
    (∀ (s : Segment K) (v : V) (l r : SegMap K V), Inv (SegMap.node s v l r) →
      ∃ x1 ∈ (SegMap.node s v l r).segsM, ∃ x2 ∈ (SegMap.node s v l r).segsM,
        span (SegMap.node s v l r) = some ⟨x1.lower, x2.upper⟩ ∧
        ∀ u ∈ (SegMap.node s v l r).segsM, x1.lower ≤ u.lower ∧ u.upper ≤ x2.upper) := by
  refine ⟨rfl, ?_⟩
  intro s v l r hinv
  obtain ⟨⟨x1, hx1, he1⟩, hmin⟩ := minKey_spec l s v r hinv
  obtain ⟨⟨x2, hx2, he2⟩, hmax⟩ := maxKey_spec r s v l hinv
  refine ⟨x1, hx1, x2, hx2, ?_, fun u hu => ⟨he1 ▸ hmin u hu, he2 ▸ hmax u hu⟩⟩
  simp only [span]
  rw [he1, he2]

/-- C9 counterexample: the reachable map `tb3` stores `[3,9)` but its
span is `[0,5)`, whose upper bound is not the maximum stored upper
bound. -/
theorem span_cex :
    Reachable tb3 ∧ span tb3 = some ⟨0, 5⟩ ∧
    (⟨3, 9⟩ : Segment Int) ∈ tb3.segsM ∧ ¬ ((9 : Int) ≤ 5) :=
  ⟨reach_tb3, by decide, by decide, by decide⟩

/-- C10: inserting a segment adjacent to a stored one carrying the same
value keeps both entries separate: the result holds exactly the old
entries plus the new one, with both adjacent equal-valued entries
present (no coalescing ever happens). -/
theorem adjacent_insert_no_coalesce {t t' : SegMap K V} {a b c : K} {v : V}
    (hmem : (⟨a, b⟩, v) ∈ t.entriesM) (h : insertT t ⟨b, c⟩ v = some t') :
    t'.entriesM = (⟨b, c⟩, v) ::ₘ t.entriesM ∧
    (⟨a, b⟩, v) ∈ t'.entriesM ∧ (⟨b, c⟩, v) ∈ t'.entriesM := by
  refine ⟨insert_entries h, ?_, ?_⟩
  · rw [insert_entries h]
    exact Multiset.mem_cons_of_mem hmem
  · rw [insert_entries h]
    exact Multiset.mem_cons_self _ _

/-- C10 witness: inserting `[6,12) -> 5` next to `[0,6) -> 5`. -/
theorem adjacent_insert_no_coalesce_witness :
    tc10.entriesM =
      (⟨6, 12⟩, (5 : Nat)) ::ₘ (SegMap.node ⟨0, 6⟩ 5 .nil .nil : SegMap Int Nat).entriesM ∧
    (⟨0, 6⟩, (5 : Nat)) ∈ tc10.entriesM ∧ (⟨6, 12⟩, (5 : Nat)) ∈ tc10.entriesM :=
  adjacent_insert_no_coalesce (by decide) (by decide)

/-- C10 counterexample: the reachable map `tc10` stores the adjacent
segments `[0,6)` and `[6,12)` both mapped to 5, so
non-adjacency-with-equal-value is not maintained. -/
theorem adjacent_equal_values_cex :
    Reachable tc10 ∧ (⟨0, 6⟩, (5 : Nat)) ∈ tc10.entriesM ∧
    (⟨6, 12⟩, (5 : Nat)) ∈ tc10.entriesM ∧
    (⟨0, 6⟩ : Segment Int).upper = (⟨6, 12⟩ : Segment Int).lower := by
  refine ⟨?_, by decide, by decide, by decide⟩
  exact Reachable.insert
    (Reachable.insert Reachable.empty
      (show insertT (SegMap.nil : SegMap Int Nat) ⟨0, 6⟩ 5 =
        some (SegMap.node ⟨0, 6⟩ 5 .nil .nil) from rfl))
    (show insertT (SegMap.node ⟨0, 6⟩ 5 .nil .nil) ⟨6, 12⟩ 5 = some tc10 from by decide)

end SegMap
